import Mathlib

/-!
Verification of the artifact-scanning subsystem of the Agent Context Explorer
VS Code extension (scanners for rules, commands, skills, AGENTS.md, specs and
schemas, plus the MCP tool layer on top of them).

The TypeScript sources are embedded shallowly:

* JavaScript string/regex operations are modelled character-exactly on
  `List Char` (greedy/lazy backtracking, the JS `\s` class, the JS `.` class
  which excludes the four line terminators, multiline anchors, case folding
  restricted to ASCII letters as all compared literals are ASCII).
* The `vscode.workspace.fs` / `fs/promises` filesystem is modelled by an
  oracle record `VFS` (stat / readDirectory / readFile, each returning
  `Option` where the host API may throw).
* Scanner functions are translated by structural recursion, preserving the
  sources' control flow (including per-file vs whole-loop try/catch scopes).
-/

namespace ACE

/-! ## JavaScript character classes and string primitives -/

/-- The JS regex `\s` class (WhiteSpace plus LineTerminator productions). -/
def jsWs (c : Char) : Bool :=
  c = ' ' || c = '\t' || c = '\n' || c = '\r' || c = '\x0b' || c = '\x0c' ||
  c = '\u00a0' || c = '\u1680' ||
  ('\u2000' ≤ c && c ≤ '\u200a') ||
  c = '\u2028' || c = '\u2029' || c = '\u202f' || c = '\u205f' ||
  c = '\u3000' || c = '\ufeff'

/-- The JS regex `.` class: any character except the four line terminators. -/
def jsDot (c : Char) : Bool :=
  !(c = '\n' || c = '\r' || c = '\u2028' || c = '\u2029')

/-- ASCII case folding; the sources only compare ASCII literals
(`toLowerCase`, regex `i` flag). -/
def jsLowerChar (c : Char) : Char :=
  if 65 ≤ c.toNat && c.toNat ≤ 90 then Char.ofNat (c.toNat + 32) else c

/-- `String.prototype.toLowerCase`, restricted to ASCII mapping. -/
def jsLower (s : String) : String := ⟨s.data.map jsLowerChar⟩

/-- `String.prototype.trim` (strips the `\s` set from both ends). -/
def jsTrimL (cs : List Char) : List Char :=
  ((cs.dropWhile jsWs).reverse.dropWhile jsWs).reverse

def jsTrim (s : String) : String := ⟨jsTrimL s.data⟩

/-- Character at index `i` (JS `s[i]`). -/
def charAt (cs : List Char) (i : Nat) : Option Char := (cs.drop i).head?

/-- Literal match at position `i` (case sensitive). -/
def litAt (cs : List Char) (i : Nat) (pat : List Char) : Bool :=
  pat.isPrefixOf (cs.drop i)

/-- Literal match at position `i` under the regex `i` flag. -/
def litAtCI (cs : List Char) (i : Nat) (pat : List Char) : Bool :=
  (pat.map jsLowerChar).isPrefixOf ((cs.drop i).map jsLowerChar)

/-- Length of the maximal run of `p`-characters starting at `i`. -/
def runLen (p : Char → Bool) (cs : List Char) (i : Nat) : Nat :=
  ((cs.drop i).takeWhile p).length

/-- `String.prototype.includes` (contiguous substring). -/
def containsSubL (needle hay : List Char) : Bool :=
  (List.range (hay.length + 1)).any fun i => needle.isPrefixOf (hay.drop i)

def containsSubS (needle hay : String) : Bool := containsSubL needle.data hay.data

/-- `String.prototype.indexOf` for a literal (first occurrence). -/
def idxOfSub (needle hay : List Char) : Option Nat :=
  (List.range (hay.length + 1)).find? fun i => needle.isPrefixOf (hay.drop i)

/-- Positions where the multiline anchor `^` matches: 0 and every position
directly after a `'\n'`. -/
def lineStarts (cs : List Char) : List Nat :=
  0 :: (List.range cs.length).filterMap
    (fun i => if charAt cs i = some '\n' then some (i + 1) else none)

/-- `n, n-1, ..., 0`: the order in which a greedy quantifier tries lengths. -/
def descRange (n : Nat) : List Nat := (List.range (n + 1)).reverse

/-- Backtracking tail matcher for the recurring pattern `W*(S+)` (optionally
`W+`, optionally followed by `$`): a greedy run of `wsCls` characters of
length at least `minW`, then a capture group of a maximal nonempty run of
`segCls` characters; when `requireEol` is set the group must end at the end
of input or directly before `'\n'` (the `$` anchor under the `m` flag, and
also the plain `$` for inputs that contain no newline).  Returns the group
and the position directly after it. -/
def greedyTail (wsCls segCls : Char → Bool) (minW : Nat) (requireEol : Bool)
    (cs : List Char) (j : Nat) : Option (List Char × Nat) :=
  (descRange (runLen wsCls cs j)).findSome? fun w =>
    if w < minW then none
    else
      let seg := (cs.drop (j + w)).takeWhile segCls
      if seg.isEmpty then none
      else
        let e := j + w + seg.length
        if requireEol then
          if e = cs.length || charAt cs e = some '\n' then some (seg, e) else none
        else some (seg, e)

/-! ## Markdown section parsing (`AsdlcArtifactScanner.parseSections`) -/

/-- `line.match(/^(#{1,6})\s+(.+)$/)` on a single line (no embedded `'\n'`):
1–6 `#` characters, at least one whitespace character, then a nonempty
remainder of `.`-characters reaching the end of the line.  Returns
(`match[1].length`, `match[2]`). -/
def headingMatch (line : List Char) : Option (Nat × List Char) :=
  let k := runLen (· = '#') line 0
  if k = 0 || 6 < k then none
  else
    match greedyTail jsWs jsDot 1 true line k with
    | some (seg, _) => some (k, seg)
    | none => none

def isHeading (line : String) : Bool := (headingMatch line.data).isSome

structure AgentsMdSection where
  level : Nat
  title : String
  startLine : Nat
  endLine : Nat
deriving DecidableEq, Repr

/-- The loop body of `parseSections`: `i` is the current line index, `total`
the total number of lines, `cur` the currently open section. -/
def sectionsGo (total : Nat) : List String → Nat → Option AgentsMdSection →
    List AgentsMdSection
  | [], _, cur => match cur with | some c => [c] | none => []
  | l :: rest, i, cur =>
    match headingMatch l.data with
    | some (lv, seg) =>
      let newSec : AgentsMdSection :=
        { level := lv, title := jsTrim ⟨seg⟩, startLine := i, endLine := total - 1 }
      match cur with
      | some c => { c with endLine := i - 1 } :: sectionsGo total rest (i + 1) (some newSec)
      | none => sectionsGo total rest (i + 1) (some newSec)
    | none => sectionsGo total rest (i + 1) cur

/-- `AsdlcArtifactScanner.parseSections`. -/
def parseSections (lines : List String) : List AgentsMdSection :=
  sectionsGo lines.length lines 0 none

/-- `content.split('\n')` (single-character separator). -/
def splitNl : List Char → List (List Char)
  | [] => [[]]
  | c :: t =>
    match splitNl t with
    | h :: rest => if c = '\n' then [] :: h :: rest else (c :: h) :: rest
    | [] => [[c]]

def splitLines (content : String) : List String := (splitNl content.data).map String.mk

/-- `lines.join('\n')`. -/
def joinNl : List (List Char) → List Char
  | [] => []
  | [l] => l
  | l :: t => l ++ '\n' :: joinNl t

/-- `lines.slice(start, stop)` then `join('\n')`, as a `String`. -/
def sliceJoin (lines : List String) (start stop : Nat) : String :=
  ⟨joinNl (((lines.map String.data).drop start).take (stop - start))⟩

/-! ## AGENTS.md extractors (`AsdlcArtifactScanner`) -/

/-- `Array.prototype.find` paired with `indexOf` of the found element
(the source calls `sections.find(...)` and later `sections.indexOf(section)`;
reference equality makes that the index of the first predicate match). -/
def findWithIdx (p : α → Bool) : List α → Option (Nat × α)
  | [] => none
  | x :: t => if p x then some (0, x) else (findWithIdx p t).map fun r => (r.1 + 1, r.2)

/-- `content.match(/>\s*\*\*LABEL\*\*\s*(.+)/)` followed by
`match[1].trim()`, for a blockquote label such as `Project Mission:`.
After `>` the greedy `\s*` must end exactly at the whole whitespace run,
since the following literal starts with `*`, which is not whitespace. -/
def blockquoteValue (content : String) (label : String) : Option String :=
  let cs := content.data
  let lit := '*' :: '*' :: label.data ++ ['*', '*']
  ((List.range (cs.length + 1)).findSome? fun i =>
    if charAt cs i = some '>' then
      let q := i + 1 + runLen jsWs cs (i + 1)
      if litAt cs q lit then
        (greedyTail jsWs jsDot 0 false cs (q + lit.length)).map (·.1)
      else none
    else none).map fun seg => jsTrim ⟨seg⟩

/-- `AsdlcArtifactScanner.extractMission`. -/
def extractMission (content : String) : Option String :=
  blockquoteValue content "Project Mission:"

/-- `AsdlcArtifactScanner.extractCorePhilosophy`. -/
def extractCorePhilosophy (content : String) : Option String :=
  blockquoteValue content "Core Philosophy:"

/-- Generic driver reproducing `regex.exec` with the `g` and `m` flags for a
pattern anchored at `^`: repeatedly take the leftmost line-start match at or
after the current `lastIndex`, then continue from the match end. -/
def gmCollect (matchAt : Nat → Option (String × Nat)) (cs : List Char) : List String :=
  go (cs.length + 2) 0
where
  go : Nat → Nat → List String
    | 0, _ => []
    | fuel + 1, pos =>
      match (lineStarts cs).findSome?
          (fun p => if pos ≤ p then matchAt p else none) with
      | none => []
      | some (item, e) => if pos < e then item :: go fuel e else []

/-- One attempt of `/^\s*-\s*\*\*(ALWAYS|ASK|NEVER)\*\*\s*(.+)$/gm` at line
start `p`; returns (`match[2]`, match end).  Each interior greedy `\s*` is
followed by a non-whitespace literal, so only the full whitespace run can
precede it. -/
def tierBulletAt (cs : List Char) (p : Nat) : Option (String × Nat) :=
  let d := p + runLen jsWs cs p
  if charAt cs d = some '-' then
    let b := d + 1 + runLen jsWs cs (d + 1)
    if litAt cs b ['*', '*'] then
      ["ALWAYS", "ASK", "NEVER"].findSome? fun lab =>
        if litAt cs (b + 2) lab.data && litAt cs (b + 2 + lab.length) ['*', '*'] then
          (greedyTail jsWs jsDot 0 true cs (b + 2 + lab.length + 2)).map
            fun r => (String.mk r.1, r.2)
        else none
    else none
  else none

/-- One attempt of the pattern `###?\s*KW[^\n]*NM[^\n]*` (flag `i`) at
position `i`; returns `match[0]`.  The optional third `#` is tried greedily;
`\s*` must end at the full whitespace run (the keyword starts with a letter);
the two `[^\n]*` pieces confine `NM` to the rest of the same line and extend
the match to the end of that line. -/
def tierHeadAt (cs : List Char) (kw nm : List Char) (i : Nat) : Option (List Char) :=
  if litAt cs i ['#', '#'] then
    (if charAt cs (i + 2) = some '#' then [3, 2] else [2]).findSome? fun h =>
      let j := i + h
      let q := j + runLen jsWs cs j
      if litAtCI cs q kw then
        let r := q + kw.length
        let L := (cs.drop r).takeWhile (· ≠ '\n')
        if containsSubL (nm.map jsLowerChar) (L.map jsLowerChar) then
          some ((cs.drop i).take (r + L.length - i))
        else none
      else none
  else none

/-- Leftmost match of the tier heading regex; returns `match[0]`. -/
def tierHeadMatch (cs : List Char) (kw nm : List Char) : Option (List Char) :=
  (List.range (cs.length + 1)).findSome? (tierHeadAt cs kw nm)

/-- Leftmost match of `/^#{2,3}\s/m` (greedy on the `#` count); returns
`match[0]`, i.e. the hashes plus the single whitespace character. -/
def nextHeadingTok (cs : List Char) : Option (List Char) :=
  (lineStarts cs).findSome? fun p =>
    if litAt cs p ['#', '#', '#'] && ((charAt cs (p + 3)).map jsWs).getD false then
      some ((cs.drop p).take 4)
    else if litAt cs p ['#', '#'] && ((charAt cs (p + 2)).map jsWs).getD false then
      some ((cs.drop p).take 3)
    else none

/-- `AsdlcArtifactScanner.extractTierItems`. -/
def extractTierItems (content : String) (tierKeyword tierName : String) : List String :=
  let cs := content.data
  match tierHeadMatch cs tierKeyword.data tierName.data with
  | none => []
  | some m0 =>
    let startIndex := (idxOfSub m0 cs).getD 0 + m0.length
    let tail := cs.drop startIndex
    let endIndex :=
      match nextHeadingTok tail with
      | some tok => startIndex + (idxOfSub tok tail).getD 0
      | none => cs.length
    let tierContent := (cs.drop startIndex).take (endIndex - startIndex)
    (gmCollect (tierBulletAt tierContent) tierContent).map jsTrim

structure OperationalBoundaries where
  tier1Always : List String
  tier2Ask : List String
  tier3Never : List String
deriving DecidableEq, Repr

/-- `AsdlcArtifactScanner.extractOperationalBoundaries`. -/
def extractOperationalBoundaries (content : String)
    (sections : List AgentsMdSection) : Option OperationalBoundaries :=
  match findWithIdx
      (fun s => containsSubS "operational boundaries" (jsLower s.title)) sections with
  | none => none
  | some (boundariesIdx, boundariesSection) =>
    let nextH2Section := (sections.drop (boundariesIdx + 1)).find? (fun s => s.level = 2)
    let lines := splitLines content
    let endLine :=
      match nextH2Section with
      | some s => s.startLine - 1
      | none => lines.length - 1
    let sectionContent := sliceJoin lines boundariesSection.startLine (endLine + 1)
    some
      { tier1Always := extractTierItems sectionContent "tier 1" "always"
        tier2Ask := extractTierItems sectionContent "tier 2" "ask"
        tier3Never := extractTierItems sectionContent "tier 3" "never" }

/-- One attempt of `/^\s*-\s*\*\*KW[^*]*\*\*[:\s]*(.+)$/gmi` at line start
`p` (used by `extractListItems`); returns (`match[1]`, match end). -/
def listItemAt (kw : List Char) (cs : List Char) (p : Nat) : Option (String × Nat) :=
  let d := p + runLen jsWs cs p
  if charAt cs d = some '-' then
    let b := d + 1 + runLen jsWs cs (d + 1)
    if litAt cs b ['*', '*'] && litAtCI cs (b + 2) kw then
      let r := b + 2 + kw.length
      let nonStar := (cs.drop r).takeWhile (· ≠ '*')
      if litAt cs (r + nonStar.length) ['*', '*'] then
        (greedyTail (fun c => c = ':' || jsWs c) jsDot 0 true cs
            (r + nonStar.length + 2)).map fun q => (String.mk q.1, q.2)
      else none
    else none
  else none

/-- `AsdlcArtifactScanner.extractListItems` (collects `match[1].trim()`). -/
def extractListItems (content : String) (keyword : String) : List String :=
  (gmCollect (listItemAt keyword.data content.data) content.data).map jsTrim

/-- `AsdlcArtifactScanner.extractSingleValue`:
`content.match(/\*\*KW[^*]*\*\*[:\s]*([^\n]+)/i)`, then `match[1].trim()`. -/
def extractSingleValue (content : String) (keyword : String) : Option String :=
  let cs := content.data
  let kw := keyword.data
  ((List.range (cs.length + 1)).findSome? fun i =>
    if litAt cs i ['*', '*'] && litAtCI cs (i + 2) kw then
      let r := i + 2 + kw.length
      let nonStar := (cs.drop r).takeWhile (· ≠ '*')
      if litAt cs (r + nonStar.length) ['*', '*'] then
        (greedyTail (fun c => c = ':' || jsWs c) (· ≠ '\n') 0 false cs
            (r + nonStar.length + 2)).map (·.1)
      else none
    else none).map fun seg => jsTrim ⟨seg⟩

structure TechStackInfo where
  languages : List String
  frameworks : List String
  buildTools : List String
  testing : List String
  packageManager : Option String
deriving DecidableEq, Repr

/-- `AsdlcArtifactScanner.extractTechStack`. -/
def extractTechStack (content : String)
    (sections : List AgentsMdSection) : Option TechStackInfo :=
  match findWithIdx
      (fun s =>
        containsSubS "tech stack" (jsLower s.title) ||
        containsSubS "technology" (jsLower s.title)) sections with
  | none => none
  | some (techStackIdx, techStackSection) =>
    let nextH2Section := (sections.drop (techStackIdx + 1)).find? (fun s => s.level = 2)
    let lines := splitLines content
    let endLine :=
      match nextH2Section with
      | some s => s.startLine - 1
      | none => lines.length - 1
    let sectionContent := sliceJoin lines techStackSection.startLine (endLine + 1)
    some
      { languages := extractListItems sectionContent "language"
        frameworks := extractListItems sectionContent "framework"
        buildTools := extractListItems sectionContent "build"
        testing := extractListItems sectionContent "testing"
        packageManager := extractSingleValue sectionContent "package manager" }

structure AgentsMdInfo where
  existsFlag : Bool
  path : Option String := none
  mission : Option String := none
  corePhilosophy : Option String := none
  sections : List AgentsMdSection
  techStack : Option TechStackInfo := none
  operationalBoundaries : Option OperationalBoundaries := none
deriving DecidableEq, Repr

/-- `AsdlcArtifactScanner.parseAgentsMd`. -/
def parseAgentsMd (content path : String) : AgentsMdInfo :=
  let lines := splitLines content
  let sections := parseSections lines
  { existsFlag := true
    path := some path
    mission := extractMission content
    corePhilosophy := extractCorePhilosophy content
    sections := sections
    techStack := extractTechStack content sections
    operationalBoundaries := extractOperationalBoundaries content sections }

/-- `AsdlcArtifactScanner.emptyAgentsMdInfo`. -/
def emptyAgentsMdInfo : AgentsMdInfo := { existsFlag := false, sections := [] }

/-! ## Filesystem model -/

inductive FileType where
  | file
  | directory
  | symbolicLink
  | unknown
deriving DecidableEq, Repr

structure FSStat where
  type : FileType
  mtime : Nat
deriving DecidableEq, Repr

/-- Oracle for the host filesystem (`vscode.workspace.fs` / `fs/promises`);
paths are segment lists, `none` models a thrown error. -/
structure VFS where
  stat : List String → Option FSStat
  readDir : List String → Option (List (String × FileType))
  readFile : List String → Option String

/-- `uri.fsPath` rendering of a segment path. -/
def fsPathOf (p : List String) : String := String.intercalate "/" p

/-! ## JSON (`JSON.parse`, used by `extractSchemaId`) -/

inductive JsVal where
  | jnull
  | jbool (b : Bool)
  | jnum (lexeme : String)
  | jstr (s : String)
  | jarr (xs : List JsVal)
  | jobj (fields : List (String × JsVal))

/-- JSON whitespace (space, tab, newline, carriage return). -/
def jsonWsChar (c : Char) : Bool := c = ' ' || c = '\t' || c = '\n' || c = '\r'

def skipJsonWs (cs : List Char) : List Char := cs.dropWhile jsonWsChar

/-- JSON string body after the opening quote; standard escapes, raw control
characters rejected.  `\uXXXX` decodes valid scalar values (surrogate pairs
are not recombined; no scanned artifact relies on astral characters). -/
def jsonStr : Nat → List Char → Option (List Char × List Char)
  | 0, _ => none
  | _, [] => none
  | fuel + 1, c :: rest =>
    if c = '"' then some ([], rest)
    else if c = '\\' then
      match rest with
      | [] => none
      | e :: rest2 =>
        let cont (d : Char) (r : List Char) : Option (List Char × List Char) :=
          (jsonStr fuel r).map fun q => (d :: q.1, q.2)
        if e = '"' then cont '"' rest2
        else if e = '\\' then cont '\\' rest2
        else if e = '/' then cont '/' rest2
        else if e = 'b' then cont '\x08' rest2
        else if e = 'f' then cont '\x0c' rest2
        else if e = 'n' then cont '\n' rest2
        else if e = 'r' then cont '\r' rest2
        else if e = 't' then cont '\t' rest2
        else if e = 'u' then
          match rest2 with
          | h1 :: h2 :: h3 :: h4 :: rest3 =>
            let hex? (h : Char) : Option Nat :=
              if '0' ≤ h && h ≤ '9' then some (h.toNat - 48)
              else if 'a' ≤ h && h ≤ 'f' then some (h.toNat - 87)
              else if 'A' ≤ h && h ≤ 'F' then some (h.toNat - 55)
              else none
            match hex? h1, hex? h2, hex? h3, hex? h4 with
            | some a, some b, some c3, some d4 =>
              cont (Char.ofNat (((a * 16 + b) * 16 + c3) * 16 + d4)) rest3
            | _, _, _, _ => none
          | _ => none
        else none
    else if c.toNat < 32 then none
    else (jsonStr fuel rest).map fun q => (c :: q.1, q.2)

/-- JSON number: `-?(0|[1-9][0-9]*)(\.[0-9]+)?([eE][+-]?[0-9]+)?`;
returns the lexeme. -/
def jsonNum (cs : List Char) : Option (List Char × List Char) :=
  let digit (c : Char) : Bool := '0' ≤ c && c ≤ '9'
  let (sign, cs1) :=
    match cs with
    | '-' :: t => (['-'], t)
    | _ => (([] : List Char), cs)
  match cs1 with
  | [] => none
  | c :: t =>
    if c = '0' then
      let intPart := [c]
      let rest := t
      let (frac, rest2) :=
        match rest with
        | '.' :: u =>
          let ds := u.takeWhile digit
          if ds.isEmpty then (none, rest) else (some ('.' :: ds), u.drop ds.length)
        | _ => (none, rest)
      match frac, rest2 with
      | none, '.' :: _ => none
      | _, _ =>
        let (ex, rest3) :=
          match rest2 with
          | e :: u =>
            if e = 'e' || e = 'E' then
              let (sg, v) :=
                match u with
                | s :: w => if s = '+' || s = '-' then ([s], w) else (([] : List Char), u)
                | [] => ([], u)
              let ds := v.takeWhile digit
              if ds.isEmpty then (none, rest2) else (some (e :: sg ++ ds), v.drop ds.length)
            else (none, rest2)
          | [] => (none, rest2)
        match ex, rest3 with
        | none, e :: _ =>
          if e = 'e' || e = 'E' then none
          else some (sign ++ intPart ++ (frac.getD []), rest3)
        | _, _ => some (sign ++ intPart ++ (frac.getD []) ++ (ex.getD []), rest3)
    else if digit c then
      let ds := c :: t.takeWhile digit
      let rest := t.drop (t.takeWhile digit).length
      let (frac, rest2) :=
        match rest with
        | '.' :: u =>
          let fs := u.takeWhile digit
          if fs.isEmpty then (none, rest) else (some ('.' :: fs), u.drop fs.length)
        | _ => (none, rest)
      match frac, rest2 with
      | none, '.' :: _ => none
      | _, _ =>
        let (ex, rest3) :=
          match rest2 with
          | e :: u =>
            if e = 'e' || e = 'E' then
              let (sg, v) :=
                match u with
                | s :: w => if s = '+' || s = '-' then ([s], w) else (([] : List Char), u)
                | [] => ([], u)
              let es := v.takeWhile digit
              if es.isEmpty then (none, rest2) else (some (e :: sg ++ es), v.drop es.length)
            else (none, rest2)
          | [] => (none, rest2)
        match ex, rest3 with
        | none, e :: _ =>
          if e = 'e' || e = 'E' then none
          else some (sign ++ ds ++ (frac.getD []), rest3)
        | _, _ => some (sign ++ ds ++ (frac.getD []) ++ (ex.getD []), rest3)
    else none

mutual

def jsonVal : Nat → List Char → Option (JsVal × List Char)
  | 0, _ => none
  | fuel + 1, cs =>
    match skipJsonWs cs with
    | [] => none
    | c :: rest =>
      if c = '{' then
        match skipJsonWs rest with
        | '}' :: r => some (.jobj [], r)
        | _ => (jsonMembers fuel rest).map fun q => (.jobj q.1, q.2)
      else if c = '[' then
        match skipJsonWs rest with
        | ']' :: r => some (.jarr [], r)
        | _ => (jsonElements fuel rest).map fun q => (.jarr q.1, q.2)
      else if c = '"' then
        (jsonStr (rest.length + 1) rest).map fun q => (.jstr ⟨q.1⟩, q.2)
      else if litAt (c :: rest) 0 "true".data then some (.jbool true, rest.drop 3)
      else if litAt (c :: rest) 0 "false".data then some (.jbool false, rest.drop 4)
      else if litAt (c :: rest) 0 "null".data then some (.jnull, rest.drop 3)
      else (jsonNum (c :: rest)).map fun q => (.jnum ⟨q.1⟩, q.2)

/-- Object members after `{` (at least one). -/
def jsonMembers : Nat → List Char → Option (List (String × JsVal) × List Char)
  | 0, _ => none
  | fuel + 1, cs =>
    match skipJsonWs cs with
    | '"' :: rest =>
      match jsonStr (rest.length + 1) rest with
      | none => none
      | some (key, rest2) =>
        match skipJsonWs rest2 with
        | ':' :: rest3 =>
          match jsonVal fuel rest3 with
          | none => none
          | some (v, rest4) =>
            match skipJsonWs rest4 with
            | ',' :: rest5 =>
              (jsonMembers fuel rest5).map fun q => ((⟨key⟩, v) :: q.1, q.2)
            | '}' :: rest5 => some ([(⟨key⟩, v)], rest5)
            | _ => none
        | _ => none
    | _ => none

/-- Array elements after `[` (at least one). -/
def jsonElements : Nat → List Char → Option (List JsVal × List Char)
  | 0, _ => none
  | fuel + 1, cs =>
    match jsonVal fuel cs with
    | none => none
    | some (v, rest) =>
      match skipJsonWs rest with
      | ',' :: rest2 => (jsonElements fuel rest2).map fun q => (v :: q.1, q.2)
      | ']' :: rest2 => some ([v], rest2)
      | _ => none

end

/-- `JSON.parse` (returns `none` where it would throw). -/
def jsonParse (s : String) : Option JsVal :=
  match jsonVal (s.length + 1) s.data with
  | some (v, rest) => if skipJsonWs rest = [] then some v else none
  | none => none

/-- JS truthiness of a parsed JSON value (`undefined` is `none` at use
sites); a number is falsy exactly when its mantissa digits are all zero. -/
def jsTruthy : JsVal → Bool
  | .jnull => false
  | .jbool b => b
  | .jnum lex =>
    !((lex.data.takeWhile fun c => c ≠ 'e' ∧ c ≠ 'E').all
      fun c => !c.isDigit || c = '0')
  | .jstr s => !s.isEmpty
  | .jarr _ => true
  | .jobj _ => true

/-- JS property access `obj[k]` on a parsed JSON value (`none` when the value
is not an object or the key is absent; for duplicate keys `JSON.parse` keeps
the last occurrence). -/
def getProp (v : JsVal) (k : String) : Option JsVal :=
  match v with
  | .jobj fields => (fields.reverse.find? fun f => f.1 == k).map (·.2)
  | _ => none

/-- `String.prototype.endsWith`. -/
def endsWithS (s suffix : String) : Bool :=
  suffix.data.reverse.isPrefixOf s.data.reverse

/-- `String.prototype.startsWith`. -/
def startsWithS (s pre : String) : Bool := pre.data.isPrefixOf s.data

/-! ## AsdlcArtifactScanner: scanAgentsMd / scanSpecs / scanSchemas / scanAll -/

/-- `AsdlcArtifactScanner.scanAgentsMd`. -/
def scanAgentsMd (fs : VFS) (root : List String) : AgentsMdInfo :=
  let agentsMdPath := root ++ ["AGENTS.md"]
  match fs.stat agentsMdPath with
  | some st =>
    if st.type = .file then
      match fs.readFile agentsMdPath with
      | some content => parseAgentsMd content (fsPathOf agentsMdPath)
      | none => emptyAgentsMdInfo
    else emptyAgentsMdInfo
  | none => emptyAgentsMdInfo

/-- `AsdlcArtifactScanner.hasSection`: `new RegExp("^##\\s+NAME", "mi")`
tested against the content. -/
def hasSection (content sectionName : String) : Bool :=
  let cs := content.data
  (lineStarts cs).any fun p =>
    litAt cs p ['#', '#'] &&
    ((descRange (runLen jsWs cs (p + 2))).any fun w =>
      1 ≤ w && litAtCI cs (p + 2 + w) sectionName.data)

structure SpecFile where
  domain : String
  path : String
  hasBlueprint : Bool
  hasContract : Bool
  /-- `new Date(stat.mtime).toISOString()`; the ISO rendering of the
  modification time is kept abstract as the raw `mtime`. -/
  lastModifiedMtime : Nat
deriving DecidableEq, Repr

structure SpecsInfo where
  existsFlag : Bool
  path : Option String := none
  specs : List SpecFile
deriving DecidableEq, Repr

structure SchemaFile where
  name : String
  path : String
  schemaId : Option JsVal := none

structure SchemasInfo where
  existsFlag : Bool
  path : Option String := none
  schemas : List SchemaFile

def emptySpecsInfo : SpecsInfo := { existsFlag := false, specs := [] }

def emptySchemasInfo : SchemasInfo := { existsFlag := false, schemas := [] }

/-- `AsdlcArtifactScanner.findSpecFiles` (per-directory stat and read inside
one try: a failing stat or read skips the entry). -/
def findSpecFiles (fs : VFS) (specsPath : List String) : List SpecFile :=
  match fs.readDir specsPath with
  | none => []
  | some entries =>
    entries.filterMap fun entry =>
      if entry.2 = .directory then
        let specFilePath := specsPath ++ [entry.1, "spec.md"]
        match fs.stat specFilePath with
        | some st =>
          if st.type = .file then
            match fs.readFile specFilePath with
            | some content =>
              some
                { domain := entry.1
                  path := fsPathOf specFilePath
                  hasBlueprint := hasSection content "Blueprint"
                  hasContract := hasSection content "Contract"
                  lastModifiedMtime := st.mtime }
            | none => none
          else none
        | none => none
      else none

/-- `AsdlcArtifactScanner.scanSpecs`. -/
def scanSpecs (fs : VFS) (root : List String) : SpecsInfo :=
  let specsPath := root ++ ["specs"]
  match fs.stat specsPath with
  | some st =>
    if st.type = .directory then
      { existsFlag := true
        path := some (fsPathOf specsPath)
        specs := findSpecFiles fs specsPath }
    else emptySpecsInfo
  | none => emptySpecsInfo

/-- `AsdlcArtifactScanner.extractSchemaId`: `JSON.parse` then
`json.$id || json.id` (`none` models both a parse failure and `undefined`). -/
def extractSchemaId (content : String) : Option JsVal :=
  match jsonParse content with
  | none => none
  | some json =>
    match getProp json "$id" with
    | some v => if jsTruthy v then some v else getProp json "id"
    | none => getProp json "id"

/-- The schema-file filter of `findSchemaFiles`: regular files whose name
ends with `.json`. -/
def jsonFileEntry (e : String × FileType) : Bool :=
  e.2 = FileType.file && endsWithS e.1 ".json"

/-- `AsdlcArtifactScanner.findSchemaFiles` (per-file try: a failing read
still yields a record, with no `schemaId`). -/
def findSchemaFiles (fs : VFS) (schemasPath : List String) : List SchemaFile :=
  match fs.readDir schemasPath with
  | none => []
  | some entries =>
    entries.filterMap fun entry =>
      if jsonFileEntry entry then
        let schemaFilePath := schemasPath ++ [entry.1]
        match fs.readFile schemaFilePath with
        | some content =>
          some
            { name := entry.1
              path := fsPathOf schemaFilePath
              schemaId := extractSchemaId content }
        | none => some { name := entry.1, path := fsPathOf schemaFilePath }
      else none

/-- `AsdlcArtifactScanner.scanSchemas`. -/
def scanSchemas (fs : VFS) (root : List String) : SchemasInfo :=
  let schemasPath := root ++ ["schemas"]
  match fs.stat schemasPath with
  | some st =>
    if st.type = .directory then
      { existsFlag := true
        path := some (fsPathOf schemasPath)
        schemas := findSchemaFiles fs schemasPath }
    else emptySchemasInfo
  | none => emptySchemasInfo

structure AsdlcArtifacts where
  agentsMd : AgentsMdInfo
  specs : SpecsInfo
  schemas : SchemasInfo
  hasAnyArtifacts : Bool

/-- `AsdlcArtifactScanner.scanAll` (the three sub-scans are independent
reads, so the `Promise.all` concurrency is immaterial). -/
def scanAll (fs : VFS) (root : List String) : AsdlcArtifacts :=
  let agentsMd := scanAgentsMd fs root
  let specs := scanSpecs fs root
  let schemas := scanSchemas fs root
  { agentsMd := agentsMd
    specs := specs
    schemas := schemas
    hasAnyArtifacts := agentsMd.existsFlag || specs.existsFlag || schemas.existsFlag }

/-! ## Rules: classification, `toRuleInfo`, `McpTools.getRule`, and the
standalone MCP server's `scanRules` / `get_rule` -/

inductive RuleType where
  | always
  | glob
  | manual
deriving DecidableEq, Repr

/-- The classification expression
`alwaysApply ? 'always' : (globs && globs.length > 0) ? 'glob' : 'manual'`
shared verbatim by `toRuleInfo`, `toRuleContent` and the server's
`scanRules`. -/
def classifyRule (alwaysApply : Bool) (globs : Option (List String)) : RuleType :=
  if alwaysApply then .always
  else
    match globs with
    | some l => if 0 < l.length then .glob else .manual
    | none => .manual

structure RuleMetadata where
  description : Option String := none
  globs : Option (List String) := none
  alwaysApply : Option Bool := none
deriving DecidableEq, Repr

/-- The record produced by the extension-side `RulesScanner`
(`uri` kept as its `fsPath`). -/
structure Rule where
  fsPath : String
  fileName : String
  metadata : RuleMetadata
  content : String
deriving DecidableEq, Repr

/-- `name.replace(/\.(mdc|md)$/, '')`. -/
def stripRuleExt (s : String) : String :=
  if endsWithS s ".mdc" then ⟨s.data.take (s.data.length - 4)⟩
  else if endsWithS s ".md" then ⟨s.data.take (s.data.length - 3)⟩
  else s

/-- `name.replace(/\.md$/, '')`. -/
def stripMdExt (s : String) : String :=
  if endsWithS s ".md" then ⟨s.data.take (s.data.length - 3)⟩ else s

/-- `name.replace(/\.json$/, '')`. -/
def stripJsonExt (s : String) : String :=
  if endsWithS s ".json" then ⟨s.data.take (s.data.length - 5)⟩ else s

structure RuleInfo where
  name : String
  description : String
  type : RuleType
  path : String
  globs : Option (List String) := none
deriving DecidableEq, Repr

structure RuleContent where
  name : String
  description : String
  type : RuleType
  path : String
  content : String
  globs : Option (List String) := none
deriving DecidableEq, Repr

/-- `toRuleInfo` (mcp/types.ts). -/
def toRuleInfo (rule : Rule) : RuleInfo :=
  { name := stripRuleExt rule.fileName
    description := rule.metadata.description.getD ""
    type := classifyRule (rule.metadata.alwaysApply.getD false) rule.metadata.globs
    path := rule.fsPath
    globs := rule.metadata.globs }

/-- `toRuleContent` (mcp/types.ts). -/
def toRuleContent (rule : Rule) : RuleContent :=
  { name := stripRuleExt rule.fileName
    description := rule.metadata.description.getD ""
    type := classifyRule (rule.metadata.alwaysApply.getD false) rule.metadata.globs
    path := rule.fsPath
    content := rule.content
    globs := rule.metadata.globs }

/-- The match predicate of `McpTools.getRule`: normalized-name equality or
path-substring fallback, both on lowercased strings. -/
def mcpToolsRuleMatches (name : String) (r : Rule) : Bool :=
  stripRuleExt (jsLower r.fileName) == stripRuleExt (jsLower name) ||
  containsSubS (jsLower name) (jsLower r.fsPath)

/-- `McpTools.getRule` after the scan: find and convert, `none` (null) when
nothing matches. -/
def mcpToolsGetRule (rules : List Rule) (name : String) : Option RuleContent :=
  (rules.find? (mcpToolsRuleMatches name)).map toRuleContent

/-- `content.match` of the pattern `^---\n([\s\S]*?)\n---`: anchored at the
start, lazy body up to the first `\n---`. -/
def frontmatterMatch (content : String) : Option String :=
  let cs := content.data
  if litAt cs 0 "---\n".data then
    ((List.range (cs.length + 1)).find? fun e =>
      4 ≤ e && litAt cs e "\n---".data).map fun e => ⟨(cs.drop 4).take (e - 4)⟩
  else none

/-- `frontmatter.match(/description:\s*(.+)/)`, then `match[1].trim()`. -/
def fmDescription (fm : String) : Option String :=
  let cs := fm.data
  ((List.range (cs.length + 1)).findSome? fun i =>
    if litAt cs i "description:".data then
      (greedyTail jsWs jsDot 0 false cs (i + 12)).map (·.1)
    else none).map fun seg => jsTrim ⟨seg⟩

/-- `/alwaysApply:\s*true/i.test(frontmatter)`. -/
def fmAlwaysApply (fm : String) : Bool :=
  let cs := fm.data
  (List.range (cs.length + 1)).any fun i =>
    litAtCI cs i "alwaysapply:".data &&
    ((descRange (runLen jsWs cs (i + 12))).any fun w =>
      litAtCI cs (i + 12 + w) "true".data)

/-- `content.split(sep)` for a single-character separator. -/
def splitChar (sep : Char) : List Char → List (List Char)
  | [] => [[]]
  | c :: t =>
    match splitChar sep t with
    | h :: rest => if c = sep then [] :: h :: rest else (c :: h) :: rest
    | [] => [[c]]

/-- `frontmatter.match(/globs:\s*\[(.*?)\]/)`: after `globs:` the greedy
`\s*` must end at the full whitespace run (the next literal is `[`), then the
lazy dot-group runs to the first `]` with no line terminator before it. -/
def fmGlobsRaw (fm : String) : Option String :=
  let cs := fm.data
  (List.range (cs.length + 1)).findSome? fun i =>
    if litAt cs i "globs:".data then
      let j := i + 6 + runLen jsWs cs (i + 6)
      if charAt cs j = some '[' then
        let inner := (cs.drop (j + 1)).takeWhile fun c => jsDot c && c ≠ ']'
        if charAt cs (j + 1 + inner.length) = some ']' then some ⟨inner⟩ else none
      else none
    else none

/-- `match[1].split(',').map(g => g.trim().replace(/['"]/g, ''))`. -/
def parseGlobList (inner : String) : List String :=
  (splitChar ',' inner.data).map fun g =>
    ⟨(jsTrimL g).filter fun c => !(c = '\'' || c = '"')⟩

/-- The per-file parsing of the standalone server's `scanRules`. -/
def mcpRuleInfoOfFile (rulesDir : List String) (fileName content : String) : RuleInfo :=
  let fm? := frontmatterMatch content
  let description :=
    match fm? with
    | some fm => (fmDescription fm).getD ""
    | none => ""
  let alwaysApply :=
    match fm? with
    | some fm => fmAlwaysApply fm
    | none => false
  let globs : Option (List String) :=
    match fm? with
    | some fm => (fmGlobsRaw fm).map parseGlobList
    | none => none
  { name := stripRuleExt fileName
    description := description
    type := classifyRule alwaysApply globs
    path := fsPathOf (rulesDir ++ [fileName])
    globs := globs }

/-- The rules filter of the server's `scanRules`: regular files with one of
the two supported extensions
(`file.isFile() && (file.name.endsWith('.mdc') || file.name.endsWith('.md'))`). -/
def ruleFileEntry (e : String × FileType) : Bool :=
  e.2 = FileType.file && (endsWithS e.1 ".mdc" || endsWithS e.1 ".md")

/-- Loop body of the server's `scanRules`; the whole loop sits in a single
try/catch, so a failing read aborts it, keeping the records built so far. -/
def mcpScanRulesGo (fs : VFS) (rulesDir : List String) :
    List (String × FileType) → List RuleInfo
  | [] => []
  | (name, t) :: rest =>
    if ruleFileEntry (name, t) then
      match fs.readFile (rulesDir ++ [name]) with
      | none => []
      | some content =>
        mcpRuleInfoOfFile rulesDir name content :: mcpScanRulesGo fs rulesDir rest
    else mcpScanRulesGo fs rulesDir rest

/-- The standalone MCP server's `scanRules` (`fs.readdir` on
`.cursor/rules`, which lists direct entries only). -/
def mcpScanRules (fs : VFS) (root : List String) : List RuleInfo :=
  let rulesDir := root ++ [".cursor", "rules"]
  match fs.readDir rulesDir with
  | none => []
  | some files => mcpScanRulesGo fs rulesDir files

/-- The match step of the standalone server's `get_rule` handler: exact
normalized-name comparison only. -/
def mcpServerFindRule (rules : List RuleInfo) (name : String) : Option RuleInfo :=
  let normalizedName := stripRuleExt (jsLower name)
  rules.find? fun r => jsLower r.name == normalizedName

/-! ## Commands: `CommandsScanner`, `extractCommandDescription`, and the
standalone server's `scanCommands` -/

inductive CmdLocation where
  | workspace
  | globalScope
deriving DecidableEq, Repr

/-- The record produced by the extension-side `CommandsScanner`. -/
structure Command where
  fsPath : String
  content : String
  fileName : String
  location : CmdLocation
deriving DecidableEq, Repr

/-- `vscode.workspace.findFiles` for a flat one-extension glob such as
`.cursor/commands/*.md`, modelled from the glob semantics: the files directly
inside `dir` whose name ends with the extension (a missing or unreadable
directory yields no matches). -/
def findFilesFlat (fs : VFS) (dir : List String) (ext : String) : List (List String) :=
  match fs.readDir dir with
  | none => []
  | some entries =>
    entries.filterMap fun e =>
      if e.2 = .file && endsWithS e.1 ext then some (dir ++ [e.1]) else none

/-- `file.path.split('/').pop() || 'unknown'`. -/
def lastSegOr (file : List String) : String :=
  match file.getLast? with
  | some s => if s = "" then "unknown" else s
  | none => "unknown"

/-- `CommandsScanner.scanWorkspaceCommands`: every found `.md` file yields a
record; an unreadable file yields the placeholder content (per-file try). -/
def commandsScannerScanWorkspace (fs : VFS) (root : List String) : List Command :=
  (findFilesFlat fs (root ++ [".cursor", "commands"]) ".md").map fun file =>
    match fs.readFile file with
    | some content =>
      { fsPath := fsPathOf file, content := content, fileName := lastSegOr file
        location := .workspace }
    | none =>
      { fsPath := fsPathOf file, content := "Error reading file content"
        fileName := lastSegOr file, location := .workspace }

/-- One attempt of the pattern `## Overview\s*\n+([^\n#]+)` at position `i`:
greedy `\s*`, then at least one `'\n'`, then a nonempty run of characters
that are neither `'\n'` nor `'#'`. -/
def overviewMatchAt (cs : List Char) (i : Nat) : Option (List Char) :=
  if litAt cs i "## Overview".data then
    let j := i + 11
    (descRange (runLen jsWs cs j)).findSome? fun w =>
      if charAt cs (j + w) = some '\n' then
        (descRange (runLen (· = '\n') cs (j + w))).findSome? fun k =>
          if k = 0 then none
          else
            let g := (cs.drop (j + w + k)).takeWhile fun c => c ≠ '\n' && c ≠ '#'
            if g.isEmpty then none else some g
      else none
  else none

/-- Leftmost match of `## Overview\s*\n+([^\n#]+)`; returns `match[1]`. -/
def overviewMatch (content : String) : Option String :=
  ((List.range (content.data.length + 1)).findSome?
    (overviewMatchAt content.data)).map String.mk

/-- The first-paragraph fallback predicate of `extractCommandDescription`:
nonempty after trimming and starting with neither `#` nor `-`. -/
def plainLine (line : String) : Bool :=
  let trimmed := jsTrim line
  !(trimmed == "") && !(startsWithS trimmed "#") && !(startsWithS trimmed "-")

/-- `extractCommandDescription` (mcp/types.ts; the server's workspace-command
branch inlines identical logic).  `substring(0, 200)` counts UTF-16 units;
characters of the scanned artifacts are in the basic plane, where this agrees
with taking 200 characters. -/
def extractCommandDescription (content : String) : String :=
  match overviewMatch content with
  | some g => jsTrim g
  | none =>
    match (splitLines content).find? plainLine with
    | some line => ⟨(jsTrim line).data.take 200⟩
    | none => ""

structure CommandInfo where
  name : String
  description : String
  path : String
  location : CmdLocation
deriving DecidableEq, Repr

/-- The commands filter applied by both loops of the server's
`scanCommands`: regular `.md` files that are not `README.md`
(`file.isFile() && file.name.endsWith('.md') && file.name !== 'README.md'`). -/
def mdNotReadme (e : String × FileType) : Bool :=
  e.2 = FileType.file && endsWithS e.1 ".md" && e.1 != "README.md"

/-- Workspace loop of the server's `scanCommands`: `README.md` is skipped;
the loop sits in one try/catch, so a failing read aborts it. -/
def mcpScanCommandsWsGo (fs : VFS) (dir : List String) :
    List (String × FileType) → List CommandInfo
  | [] => []
  | (name, t) :: rest =>
    if mdNotReadme (name, t) then
      match fs.readFile (dir ++ [name]) with
      | none => []
      | some content =>
        { name := stripMdExt name
          description := extractCommandDescription content
          path := fsPathOf (dir ++ [name])
          location := .workspace } :: mcpScanCommandsWsGo fs dir rest
    else mcpScanCommandsWsGo fs dir rest

/-- Global loop of the server's `scanCommands`: same discovery, but the
description comes from the Overview pattern only (no first-paragraph
fallback). -/
def mcpScanCommandsGlGo (fs : VFS) (dir : List String) :
    List (String × FileType) → List CommandInfo
  | [] => []
  | (name, t) :: rest =>
    if mdNotReadme (name, t) then
      match fs.readFile (dir ++ [name]) with
      | none => []
      | some content =>
        { name := stripMdExt name
          description := ((overviewMatch content).map jsTrim).getD ""
          path := fsPathOf (dir ++ [name])
          location := .globalScope } :: mcpScanCommandsGlGo fs dir rest
    else mcpScanCommandsGlGo fs dir rest

/-- The standalone MCP server's `scanCommands` (workspace directory then the
home-relative global directory). -/
def mcpScanCommands (fs : VFS) (root home : List String) : List CommandInfo :=
  (match fs.readDir (root ++ [".cursor", "commands"]) with
    | none => []
    | some files => mcpScanCommandsWsGo fs (root ++ [".cursor", "commands"]) files) ++
  (match fs.readDir (home ++ [".cursor", "commands"]) with
    | none => []
    | some files => mcpScanCommandsGlGo fs (home ++ [".cursor", "commands"]) files)

/-! ## Skills: `SkillsScanner.parseSKILLMetadata` -/

/-- The typed metadata bag of the skills scanner.  Frontmatter values are
copied untyped in the source (`parsed.data.title` has type `any`), so fields
carry the parsed YAML value, reusing `JsVal` as the value model. -/
structure SkillMetadata where
  title : Option JsVal := none
  overview : Option JsVal := none
  prerequisites : Option (List JsVal) := none
  steps : Option (List JsVal) := none
  tools : Option (List JsVal) := none
  guidance : Option JsVal := none

/-- Mapping of a nonempty frontmatter object into `SkillMetadata`:
recognized keys are copied (`prerequisites`/`steps`/`tools` only when
`Array.isArray` holds), everything else is dropped. -/
def mapSkillFrontmatter (d : List (String × JsVal)) : SkillMetadata :=
  let lookup (k : String) : Option JsVal := (d.find? fun f => f.1 == k).map (·.2)
  { title := lookup "title"
    overview := lookup "overview"
    prerequisites :=
      match lookup "prerequisites" with
      | some (.jarr xs) => some xs
      | _ => none
    steps :=
      match lookup "steps" with
      | some (.jarr xs) => some xs
      | _ => none
    tools :=
      match lookup "tools" with
      | some (.jarr xs) => some xs
      | _ => none
    guidance := lookup "guidance" }

/-- `content.match` of `^#\s+(.+)$` under the `m` flag, then
`match[1].trim()`: the fallback title from the first level-1 heading. -/
def firstH1 (content : String) : Option String :=
  let cs := content.data
  ((lineStarts cs).findSome? fun p =>
    if charAt cs p = some '#' then
      (greedyTail jsWs jsDot 1 true cs (p + 1)).map (·.1)
    else none).map fun seg => jsTrim ⟨seg⟩

/-- `SkillsScanner.parseSKILLMetadata`.  The gray-matter library is external;
it is passed as an oracle `matterFn` returning the frontmatter data object
(`.error` models a thrown parse exception).  Precedence as in the source:
nonempty data wins; empty data or a throw falls back to the first level-1
heading; otherwise no metadata at all. -/
def parseSKILLMetadata (matterFn : String → Except Unit (List (String × JsVal)))
    (content : String) : Option SkillMetadata :=
  match matterFn content with
  | .ok d =>
    if d.isEmpty then (firstH1 content).map fun t => { title := some (.jstr t) }
    else some (mapSkillFrontmatter d)
  | .error _ => (firstH1 content).map fun t => { title := some (.jstr t) }

/-! ## Specification-side helpers for the theorems -/

/-- The indices (offset by `i`) of the lines recognized by the heading
regex, in document order. -/
def headingIdxsFrom : List String → Nat → List Nat
  | [], _ => []
  | l :: rest, i =>
    if isHeading l then i :: headingIdxsFrom rest (i + 1)
    else headingIdxsFrom rest (i + 1)

/-- Spec-side reading of the heading regex `^(#{1,6})\s+(.+)$` on a line:
1 to 6 `#` characters, then at least one whitespace character, then at least
one `.`-class character reaching the end of the line. -/
def specHeadingL (cs : List Char) : Prop :=
  ∃ k ws txt, cs = List.replicate k '#' ++ ws ++ txt ∧ 1 ≤ k ∧ k ≤ 6 ∧
    ws ≠ [] ∧ (∀ c ∈ ws, jsWs c = true) ∧ txt ≠ [] ∧ (∀ c ∈ txt, jsDot c = true)

/-! ## Concrete fixtures used by counterexamples and witnesses -/

/-- A constitution body with an Operational Boundaries heading. -/
def obContent : String :=
  "## Operational Boundaries\n\n### Tier 1 (ALWAYS)\n\n- **ALWAYS** write tests\n"

/-- A small line list with two heading lines. -/
def c4lines : List String := ["intro", "# A", "text", "## B", "last"]

/-- A project whose `schemas/` directory holds one syntactically invalid
JSON file. -/
def badJsonFS : VFS :=
  { stat := fun p => if p = ["proj", "schemas"] then some ⟨.directory, 0⟩ else none
    readDir := fun p =>
      if p = ["proj", "schemas"] then some [("bad.json", .file)] else none
    readFile := fun p =>
      if p = ["proj", "schemas", "bad.json"] then some "not valid json \x7b\x7b\x7b"
      else none }

/-- A project whose `.cursor/commands/` directory holds `README.md` next to
an ordinary command file. -/
def readmeFS : VFS :=
  { stat := fun _ => none
    readDir := fun p =>
      if p = ["proj", ".cursor", "commands"] then
        some [("README.md", .file), ("deploy.md", .file)]
      else none
    readFile := fun p =>
      if p = ["proj", ".cursor", "commands", "README.md"] then
        some "# Commands\n\nDocumentation of this directory.\n"
      else if p = ["proj", ".cursor", "commands", "deploy.md"] then
        some "# Deploy\n\nShips the current build.\n"
      else none }

/-- A project with one rule file directly inside `.cursor/rules` and one
nested inside `.cursor/rules/sub`. -/
def nestedRuleFS : VFS :=
  { stat := fun _ => none
    readDir := fun p =>
      if p = ["proj", ".cursor", "rules"] then
        some [("sub", .directory), ("top.mdc", .file)]
      else if p = ["proj", ".cursor", "rules", "sub"] then
        some [("nested.mdc", .file)]
      else none
    readFile := fun p =>
      if p = ["proj", ".cursor", "rules", "top.mdc"] then
        some "---\ndescription: Top rule\n---\nbody"
      else if p = ["proj", ".cursor", "rules", "sub", "nested.mdc"] then
        some "---\ndescription: Nested rule\n---\nbody"
      else none }

/-- One scanned rule, as the standalone server's `scanRules` lists it. -/
def sampleRuleInfos : List RuleInfo :=
  [{ name := "typescript-style", description := "", type := .manual
     path := "/w/.cursor/rules/typescript-style.mdc" }]

/-- The same rule as the extension-side scanner record. -/
def sampleRules : List Rule :=
  [{ fsPath := "/w/.cursor/rules/typescript-style.mdc"
     fileName := "typescript-style.mdc", metadata := {}, content := "body" }]

/-- A gray-matter oracle returning a nonempty frontmatter object with one
recognized and one unrecognized key. -/
def skillMatterEx : String → Except Unit (List (String × JsVal)) :=
  fun _ => .ok [("title", .jstr "Create Plan"), ("unknownKey", .jbool true)]

/-- A gray-matter oracle returning an empty frontmatter object. -/
def skillMatterEmpty : String → Except Unit (List (String × JsVal)) :=
  fun _ => .ok []

/-- A command body with an Overview section. -/
def overviewCmd : String :=
  "# Deploy\n\n## Overview\nShips the current build.\n\n## Steps\n- step\n"

/-- A command body without an Overview section. -/
def plainCmd : String :=
  "# Deploy\n\nShips the current build to production.\n- extra\n"

/-! ## Theorems -/

/-- C1: for every filesystem and project root, the aggregate returned by
`AsdlcArtifactScanner.scanAll` satisfies
`hasAnyArtifacts = agentsMd.exists || specs.exists || schemas.exists`, and
its three components are exactly the results of the three sub-scans
`scanAgentsMd`, `scanSpecs` and `scanSchemas`. -/
theorem scanAll_hasAnyArtifacts_invariant :
    ∀ (fs : VFS) (root : List String),
      (scanAll fs root).hasAnyArtifacts =
        ((scanAll fs root).agentsMd.existsFlag || (scanAll fs root).specs.existsFlag ||
          (scanAll fs root).schemas.existsFlag) ∧
      (scanAll fs root).agentsMd = scanAgentsMd fs root ∧
      (scanAll fs root).specs = scanSpecs fs root ∧
      (scanAll fs root).schemas = scanSchemas fs root :=
  fun _ _ => ⟨rfl, rfl, rfl, rfl⟩

/-- C2: the derived rule classification (the expression shared by
`toRuleInfo`, `toRuleContent` and the server's `scanRules`) is `always`
exactly when `alwaysApply` is `true` (whatever `globs` holds), `glob`
exactly when `alwaysApply` is false or absent and the globs list is present
and nonempty, and `manual` exactly when `alwaysApply` is false or absent and
`globs` is empty or absent; the three cases are exhaustive and mutually
exclusive by the biconditionals. -/
theorem rule_classification_trichotomy :
    ∀ (aa : Option Bool) (globs : Option (List String)),
      (classifyRule (aa.getD false) globs = .always ↔ aa = some true) ∧
      (classifyRule (aa.getD false) globs = .glob ↔
        aa ≠ some true ∧ ∃ l, globs = some l ∧ l ≠ []) ∧
      (classifyRule (aa.getD false) globs = .manual ↔
        aa ≠ some true ∧ (globs = none ∨ globs = some [])) ∧
      (∀ r : Rule,
        (toRuleInfo r).type =
          classifyRule (r.metadata.alwaysApply.getD false) r.metadata.globs ∧
        (toRuleContent r).type =
          classifyRule (r.metadata.alwaysApply.getD false) r.metadata.globs) := by
  intro aa globs
  refine ⟨?_, ?_, ?_, fun r => ⟨rfl, rfl⟩⟩ <;>
    rcases aa with _ | (_ | _) <;>
    rcases globs with _ | (_ | ⟨x, xs⟩) <;>
    simp [classifyRule]

/-- C5 counterexample: on a `schemas/` directory holding exactly the
syntactically invalid `bad.json`, `scanSchemas` yields one record, but its
`name` is the full file name `"bad.json"`, not `"bad"` — no record named
`"bad"` exists (the `schemaId`-absent and not-excluded parts do hold). -/
theorem scanSchemas_badJson_name_counterexample :
    ((scanSchemas badJsonFS ["proj"]).schemas.map fun r => (r.name, r.schemaId.isSome)) =
        [("bad.json", false)] ∧
      (∀ r ∈ (scanSchemas badJsonFS ["proj"]).schemas, r.name ≠ "bad") ∧
      (scanSchemas badJsonFS ["proj"]).existsFlag = true := by
  refine ⟨by decide, by decide, by decide⟩

/-- C6 counterexample: the extension-side
`CommandsScanner.scanWorkspaceCommands` applies no `README.md` exclusion —
on a commands directory holding `README.md` and `deploy.md` it returns a
record for `README.md` as well. -/
theorem commandsScanner_readme_included_counterexample :
    ((commandsScannerScanWorkspace readmeFS ["proj"]).map Command.fileName =
        ["README.md", "deploy.md"]) ∧
      ∃ c ∈ commandsScannerScanWorkspace readmeFS ["proj"], c.fileName = "README.md" := by
  refine ⟨by decide, ?_⟩
  refine ⟨(commandsScannerScanWorkspace readmeFS ["proj"]).head (by decide), by decide, by decide⟩

/-- C7 counterexample: the standalone server's `scanRules` lists the rules
directory non-recursively: with `.cursor/rules/sub/nested.mdc` present (and
readable) in the filesystem, no record for it appears — only the top-level
`top.mdc` is scanned. -/
theorem mcpScanRules_nested_missing_counterexample :
    nestedRuleFS.readFile ["proj", ".cursor", "rules", "sub", "nested.mdc"] =
        some "---\ndescription: Nested rule\n---\nbody" ∧
      (mcpScanRules nestedRuleFS ["proj"]).map RuleInfo.name = ["top"] ∧
      ∀ r ∈ mcpScanRules nestedRuleFS ["proj"],
        r.path ≠ fsPathOf ["proj", ".cursor", "rules", "sub", "nested.mdc"] := by
  refine ⟨by decide, by decide, by decide⟩

/-- C8 counterexample: the standalone server's `get_rule` handler matches by
normalized name only: for the query `"script"` it reports not-found although
a scanned rule's path contains the query as a substring (the extension-side
`McpTools.getRule`, by contrast, does find it through its path-substring
fallback). -/
theorem serverGetRule_no_substring_counterexample :
    mcpServerFindRule sampleRuleInfos "script" = none ∧
      containsSubS (jsLower "script")
        (jsLower "/w/.cursor/rules/typescript-style.mdc") = true ∧
      (mcpToolsGetRule sampleRules "script").isSome = true := by
  refine ⟨by decide, by decide, by decide⟩

/-- C5 amended: for the cited scanner, a directory entry whose content is
not valid JSON still yields exactly one schema record — carrying the full
file name (extension included) and no `schemaId` — and the scan reports the
directory as existing instead of failing. -/
theorem scanSchemas_invalidJson_included :
    ∀ (fs : VFS) (root : List String) (name content : String) (m : Nat),
      fs.stat (root ++ ["schemas"]) = some ⟨.directory, m⟩ →
      fs.readDir (root ++ ["schemas"]) = some [(name, .file)] →
      endsWithS name ".json" = true →
      fs.readFile (root ++ ["schemas", name]) = some content →
      jsonParse content = none →
      (scanSchemas fs root).existsFlag = true ∧
        (scanSchemas fs root).schemas.map (fun r => (r.name, r.schemaId.isSome)) =
          [(name, false)] := by
  intro fs root name content m hstat hdir hext hread hparse
  unfold scanSchemas
  simp only [hstat]
  simp [findSchemaFiles, hdir, jsonFileEntry, hext, hread, extractSchemaId, hparse]

/-- C5 witness: the general theorem applied to the concrete `badJsonFS`. -/
theorem scanSchemas_invalidJson_included_witness :
    (scanSchemas badJsonFS ["proj"]).existsFlag = true ∧
      (scanSchemas badJsonFS ["proj"]).schemas.map (fun r => (r.name, r.schemaId.isSome)) =
        [("bad.json", false)] :=
  scanSchemas_invalidJson_included badJsonFS ["proj"] "bad.json"
    "not valid json \x7b\x7b\x7b" 0 (by decide) (by decide) (by decide) (by decide)
    (by rfl)

/-- Path characterization of the workspace loop of the server's
`scanCommands`, assuming every selected file is readable. -/
theorem mcpScanCommandsWsGo_paths :
    ∀ (fs : VFS) (dir : List String) (entries : List (String × FileType)),
      (∀ e ∈ entries, mdNotReadme e = true → fs.readFile (dir ++ [e.1]) ≠ none) →
      (mcpScanCommandsWsGo fs dir entries).map CommandInfo.path =
        (entries.filter mdNotReadme).map fun e => fsPathOf (dir ++ [e.1]) := by
  intro fs dir entries
  induction entries with
  | nil => intro _; simp [mcpScanCommandsWsGo]
  | cons e rest ih =>
    intro h
    obtain ⟨n, t⟩ := e
    have ihr := ih fun e' he' => h e' (List.mem_cons_of_mem _ he')
    cases hg : mdNotReadme (n, t) with
    | true =>
      have hr := h (n, t) (List.mem_cons_self _ _) hg
      cases hread : fs.readFile (dir ++ [n]) with
      | none => exact absurd hread hr
      | some content => simp [mcpScanCommandsWsGo, hg, hread, List.filter_cons, ihr]
    | false => simp [mcpScanCommandsWsGo, hg, List.filter_cons, ihr]

/-- Path characterization of the global loop of the server's
`scanCommands`, assuming every selected file is readable. -/
theorem mcpScanCommandsGlGo_paths :
    ∀ (fs : VFS) (dir : List String) (entries : List (String × FileType)),
      (∀ e ∈ entries, mdNotReadme e = true → fs.readFile (dir ++ [e.1]) ≠ none) →
      (mcpScanCommandsGlGo fs dir entries).map CommandInfo.path =
        (entries.filter mdNotReadme).map fun e => fsPathOf (dir ++ [e.1]) := by
  intro fs dir entries
  induction entries with
  | nil => intro _; simp [mcpScanCommandsGlGo]
  | cons e rest ih =>
    intro h
    obtain ⟨n, t⟩ := e
    have ihr := ih fun e' he' => h e' (List.mem_cons_of_mem _ he')
    cases hg : mdNotReadme (n, t) with
    | true =>
      have hr := h (n, t) (List.mem_cons_self _ _) hg
      cases hread : fs.readFile (dir ++ [n]) with
      | none => exact absurd hread hr
      | some content => simp [mcpScanCommandsGlGo, hg, hread, List.filter_cons, ihr]
    | false => simp [mcpScanCommandsGlGo, hg, List.filter_cons, ihr]

/-- C6 amended: the server's `scanCommands` (the cited implementation that
does exclude the reserved file) returns, in both the workspace and the
global directory, exactly one record per regular `.md` entry other than
`README.md` — `README.md` never contributes a record, every other `.md` file
does. -/
theorem mcpScanCommands_excludes_readme :
    ∀ (fs : VFS) (root home : List String)
      (wsEntries glEntries : List (String × FileType)),
      fs.readDir (root ++ [".cursor", "commands"]) = some wsEntries →
      fs.readDir (home ++ [".cursor", "commands"]) = some glEntries →
      (∀ e ∈ wsEntries, mdNotReadme e = true →
        fs.readFile ((root ++ [".cursor", "commands"]) ++ [e.1]) ≠ none) →
      (∀ e ∈ glEntries, mdNotReadme e = true →
        fs.readFile ((home ++ [".cursor", "commands"]) ++ [e.1]) ≠ none) →
      (mcpScanCommands fs root home).map CommandInfo.path =
        (wsEntries.filter mdNotReadme).map
          (fun e => fsPathOf ((root ++ [".cursor", "commands"]) ++ [e.1])) ++
        (glEntries.filter mdNotReadme).map
          (fun e => fsPathOf ((home ++ [".cursor", "commands"]) ++ [e.1])) := by
  intro fs root home wsEntries glEntries hws hgl hwsr hglr
  unfold mcpScanCommands
  rw [hws, hgl, List.map_append,
    mcpScanCommandsWsGo_paths fs (root ++ [".cursor", "commands"]) wsEntries hwsr,
    mcpScanCommandsGlGo_paths fs (home ++ [".cursor", "commands"]) glEntries hglr]

/-- C6 witness: the amended theorem applied to `readmeFS` (serving as both
the workspace and the "home" root): only `deploy.md` contributes. -/
theorem mcpScanCommands_excludes_readme_witness :
    (mcpScanCommands readmeFS ["proj"] ["proj"]).map CommandInfo.path =
      ["proj/.cursor/commands/deploy.md", "proj/.cursor/commands/deploy.md"] := by
  have h := mcpScanCommands_excludes_readme readmeFS ["proj"] ["proj"]
    [("README.md", .file), ("deploy.md", .file)]
    [("README.md", .file), ("deploy.md", .file)]
    (by decide) (by decide) (by decide) (by decide)
  rw [h]; decide

/-- Path characterization of the server's `scanRules` loop, assuming every
selected file is readable. -/
theorem mcpScanRulesGo_paths :
    ∀ (fs : VFS) (dir : List String) (entries : List (String × FileType)),
      (∀ e ∈ entries, ruleFileEntry e = true → fs.readFile (dir ++ [e.1]) ≠ none) →
      (mcpScanRulesGo fs dir entries).map RuleInfo.path =
        (entries.filter ruleFileEntry).map fun e => fsPathOf (dir ++ [e.1]) := by
  intro fs dir entries
  induction entries with
  | nil => intro _; simp [mcpScanRulesGo]
  | cons e rest ih =>
    intro h
    obtain ⟨n, t⟩ := e
    have ihr := ih fun e' he' => h e' (List.mem_cons_of_mem _ he')
    cases hg : ruleFileEntry (n, t) with
    | true =>
      have hr := h (n, t) (List.mem_cons_self _ _) hg
      cases hread : fs.readFile (dir ++ [n]) with
      | none => exact absurd hread hr
      | some content =>
        simp [mcpScanRulesGo, hg, hread, List.filter_cons, mcpRuleInfoOfFile, ihr]
    | false => simp [mcpScanRulesGo, hg, List.filter_cons, ihr]

/-- C7 amended: the standalone server's `scanRules` discovers exactly the
`.mdc`/`.md` regular files directly inside `.cursor/rules` (the `readdir`
listing is not recursive, so files nested in subdirectories contribute no
record; the extension-side `RulesScanner` glob `.cursor/rules/**` is the
recursive one). -/
theorem mcpScanRules_flat_discovery :
    ∀ (fs : VFS) (root : List String) (entries : List (String × FileType)),
      fs.readDir (root ++ [".cursor", "rules"]) = some entries →
      (∀ e ∈ entries, ruleFileEntry e = true →
        fs.readFile ((root ++ [".cursor", "rules"]) ++ [e.1]) ≠ none) →
      (mcpScanRules fs root).map RuleInfo.path =
        (entries.filter ruleFileEntry).map
          fun e => fsPathOf ((root ++ [".cursor", "rules"]) ++ [e.1]) := by
  intro fs root entries hdir hr
  simp only [mcpScanRules, hdir]
  exact mcpScanRulesGo_paths fs (root ++ [".cursor", "rules"]) entries hr

/-- C7 witness: the amended theorem applied to `nestedRuleFS`: only the
top-level rule file is discovered. -/
theorem mcpScanRules_flat_discovery_witness :
    (mcpScanRules nestedRuleFS ["proj"]).map RuleInfo.path =
      ["proj/.cursor/rules/top.mdc"] := by
  have h := mcpScanRules_flat_discovery nestedRuleFS ["proj"]
    [("sub", .directory), ("top.mdc", .file)] (by decide) (by decide)
  rw [h]; decide

theorem isPrefixOf_self_append (p r : List Char) : p.isPrefixOf (p ++ r) = true := by
  induction p with
  | nil => simp [List.isPrefixOf]
  | cons c cs ih => simp [List.isPrefixOf, ih]

theorem jsLower_append (s t : String) : jsLower (s ++ t) = jsLower s ++ jsLower t := by
  show String.mk _ = String.mk _ ++ String.mk _
  simp [jsLower, String.data_append]
  rfl

theorem endsWithS_append_self (s t : String) : endsWithS (s ++ t) t = true := by
  simp [endsWithS, String.data_append, List.reverse_append, isPrefixOf_self_append]

theorem stripRuleExt_append_mdc (s : String) : stripRuleExt (s ++ ".mdc") = s := by
  have h1 : endsWithS (s ++ ".mdc") ".mdc" = true := endsWithS_append_self s ".mdc"
  simp [stripRuleExt, h1, String.data_append]

theorem endsWithS_append_md_mdc (s : String) : endsWithS (s ++ ".md") ".mdc" = false := by
  simp [endsWithS, String.data_append, List.reverse_append]
  rfl

theorem stripRuleExt_append_md (s : String) : stripRuleExt (s ++ ".md") = s := by
  have h0 : endsWithS (s ++ ".md") ".mdc" = false := endsWithS_append_md_mdc s
  have h1 : endsWithS (s ++ ".md") ".md" = true := endsWithS_append_self s ".md"
  simp [stripRuleExt, h0, h1, String.data_append]

theorem stripRuleExt_no_ext (s : String) (h1 : endsWithS s ".mdc" = false)
    (h2 : endsWithS s ".md" = false) : stripRuleExt s = s := by
  simp [stripRuleExt, h1, h2]

/-- C8 amended: `McpTools.getRule` matches scanned rules by normalized name
(lowercased, one `.mdc`/`.md` extension stripped) with a lowercased
path-substring fallback, and returns the explicit `null` (here `none`)
exactly when no rule satisfies either criterion — it is a total function, so
no error is thrown.  Matching depends on the query only through its
lowercasing (case-insensitive), appending a rule extension to an
extension-free query leaves the normalized name unchanged
(extension-agnostic), and a path-substring hit alone guarantees a found
result (the standalone server's `get_rule` lacks this fallback, see the
counterexample). -/
theorem mcpToolsGetRule_matching :
    ∀ (rules : List Rule) (name : String),
      (mcpToolsGetRule rules name = none ↔
        ∀ r ∈ rules, mcpToolsRuleMatches name r = false) ∧
      (∀ q, jsLower q = jsLower name →
        mcpToolsGetRule rules q = mcpToolsGetRule rules name) ∧
      (endsWithS (jsLower name) ".mdc" = false → endsWithS (jsLower name) ".md" = false →
        stripRuleExt (jsLower (name ++ ".mdc")) = stripRuleExt (jsLower name) ∧
        stripRuleExt (jsLower (name ++ ".md")) = stripRuleExt (jsLower name)) ∧
      ((∃ r ∈ rules, containsSubS (jsLower name) (jsLower r.fsPath) = true) →
        (mcpToolsGetRule rules name).isSome = true) := by
  intro rules name
  refine ⟨?_, ?_, ?_, ?_⟩
  · simp [mcpToolsGetRule, List.find?_eq_none]
  · intro q hq
    have hfun : mcpToolsRuleMatches q = mcpToolsRuleMatches name :=
      funext fun r => by simp [mcpToolsRuleMatches, hq]
    simp [mcpToolsGetRule, hfun]
  · intro h1 h2
    rw [jsLower_append, jsLower_append]
    have hmdc : jsLower ".mdc" = ".mdc" := rfl
    have hmd : jsLower ".md" = ".md" := rfl
    rw [hmdc, hmd, stripRuleExt_append_mdc, stripRuleExt_append_md,
      stripRuleExt_no_ext _ h1 h2]
    exact ⟨rfl, rfl⟩
  · intro ⟨r, hr, hsub⟩
    have hm : mcpToolsRuleMatches name r = true := by
      simp [mcpToolsRuleMatches, hsub]
    cases hf : List.find? (mcpToolsRuleMatches name) rules with
    | some r2 => simp [mcpToolsGetRule, hf]
    | none =>
      rw [List.find?_eq_none] at hf
      exact absurd hm (by simpa using hf r hr)

/-- C8 witness: the amended theorem applied to `sampleRules` and the query
`"script"`. -/
theorem mcpToolsGetRule_matching_witness :
    mcpToolsGetRule sampleRules "SCRIPT" = mcpToolsGetRule sampleRules "script" ∧
      stripRuleExt (jsLower ("script" ++ ".mdc")) = stripRuleExt (jsLower "script") ∧
      (mcpToolsGetRule sampleRules "script").isSome = true :=
  ⟨(mcpToolsGetRule_matching sampleRules "script").2.1 "SCRIPT" (by decide),
    ((mcpToolsGetRule_matching sampleRules "script").2.2.1 (by decide) (by decide)).1,
    (mcpToolsGetRule_matching sampleRules "script").2.2.2
      ⟨sampleRules.head (by decide), by decide, by decide⟩⟩

/-- C9: `parseSKILLMetadata` follows the strict precedence: frontmatter data
with at least one key is mapped into the metadata bag (and the mapping
depends only on the six recognized keys — unrecognized keys are dropped);
absent or empty frontmatter falls back to a title derived from the first
level-1 heading; with neither, the metadata is entirely absent (`none`),
never an empty bag. -/
theorem parseSKILLMetadata_precedence :
    ∀ (matterFn : String → Except Unit (List (String × JsVal))) (content : String),
      (∀ d, matterFn content = .ok d → d.isEmpty = false →
        parseSKILLMetadata matterFn content = some (mapSkillFrontmatter d)) ∧
      (matterFn content = .ok [] →
        parseSKILLMetadata matterFn content =
          (firstH1 content).map fun t => { title := some (.jstr t) }) ∧
      (∀ e, matterFn content = .error e →
        parseSKILLMetadata matterFn content =
          (firstH1 content).map fun t => { title := some (.jstr t) }) ∧
      ((matterFn content = .ok [] ∨ ∃ e, matterFn content = .error e) →
        firstH1 content = none → parseSKILLMetadata matterFn content = none) ∧
      (∀ d d',
        (∀ k ∈ ["title", "overview", "prerequisites", "steps", "tools", "guidance"],
          ((d.find? fun f => f.1 == k).map Prod.snd) =
            ((d'.find? fun f => f.1 == k).map Prod.snd)) →
        mapSkillFrontmatter d = mapSkillFrontmatter d') := by
  intro matterFn content
  refine ⟨?_, ?_, ?_, ?_, ?_⟩
  · intro d h hne
    simp [parseSKILLMetadata, h, hne]
  · intro h
    simp [parseSKILLMetadata, h]
  · intro e h
    simp [parseSKILLMetadata, h]
  · rintro (h | ⟨e, h⟩) hh1 <;> simp [parseSKILLMetadata, h, hh1]
  · intro d d' h
    have ht := h "title" (by simp)
    have ho := h "overview" (by simp)
    have hp := h "prerequisites" (by simp)
    have hs := h "steps" (by simp)
    have htl := h "tools" (by simp)
    have hg := h "guidance" (by simp)
    simp only [mapSkillFrontmatter, ht, ho, hp, hs, htl, hg]

/-- C9 witness: the precedence theorem applied to concrete gray-matter
oracles: nonempty data is mapped (the heading is ignored), and empty data
over heading-free content yields no metadata at all. -/
theorem parseSKILLMetadata_precedence_witness :
    parseSKILLMetadata skillMatterEx "# Heading ignored" =
      some (mapSkillFrontmatter
        [("title", .jstr "Create Plan"), ("unknownKey", .jbool true)]) ∧
      parseSKILLMetadata skillMatterEmpty "no heading at all" = none :=
  ⟨(parseSKILLMetadata_precedence skillMatterEx "# Heading ignored").1 _ rfl rfl,
    (parseSKILLMetadata_precedence skillMatterEmpty "no heading at all").2.2.2.1
      (Or.inl rfl) (by rfl)⟩

/-- Inverting the Overview matcher: the captured group consists of
characters of the class `[^\n#]`. -/
theorem overviewMatchAt_chars (cs : List Char) (i : Nat) (g : List Char)
    (h : overviewMatchAt cs i = some g) : ∀ c ∈ g, c ≠ '\n' ∧ c ≠ '#' := by
  unfold overviewMatchAt at h
  split at h
  · obtain ⟨w, hw, hsome⟩ := List.exists_of_findSome?_eq_some h
    split at hsome
    · obtain ⟨k, hk, hsome2⟩ := List.exists_of_findSome?_eq_some hsome
      split at hsome2
      · cases hsome2
      · simp only at hsome2
        split at hsome2
        · cases hsome2
        · cases hsome2
          intro c hc
          have := List.mem_takeWhile_imp hc
          simp at this
          exact ⟨this.1, this.2⟩
    · cases hsome
  · cases h

/-- C10: the derived command description is the trimmed Overview capture
when the `## Overview` pattern matches (a run of characters that are neither
newline nor `#`, so it stops at the next newline or `#`); otherwise it is
the first line that trims to a nonempty string starting with neither `#` nor
`-`, truncated to 200 units — hence never longer than 200 — and the empty
string when no such line exists either. -/
theorem extractCommandDescription_spec :
    ∀ content : String,
      (∀ g, overviewMatch content = some g →
        extractCommandDescription content = jsTrim g ∧
          ∀ c ∈ g.data, c ≠ '\n' ∧ c ≠ '#') ∧
      (overviewMatch content = none →
        (extractCommandDescription content).length ≤ 200 ∧
        (∀ line, (splitLines content).find? plainLine = some line →
          extractCommandDescription content = ⟨(jsTrim line).data.take 200⟩) ∧
        ((splitLines content).find? plainLine = none →
          extractCommandDescription content = "")) := by
  intro content
  constructor
  · intro g hg
    refine ⟨by simp [extractCommandDescription, hg], ?_⟩
    unfold overviewMatch at hg
    obtain ⟨g0, hg0, rfl⟩ := Option.map_eq_some'.mp hg
    obtain ⟨i, hi, hat⟩ := List.exists_of_findSome?_eq_some hg0
    exact overviewMatchAt_chars content.data i g0 hat
  · intro hov
    have hlen : ∀ line, (splitLines content).find? plainLine = some line →
        extractCommandDescription content = ⟨(jsTrim line).data.take 200⟩ := by
      intro line hl
      simp [extractCommandDescription, hov, hl]
    refine ⟨?_, hlen, ?_⟩
    · cases hf : (splitLines content).find? plainLine with
      | some line =>
        rw [hlen line hf]
        show ((jsTrim line).data.take 200).length ≤ 200
        exact List.length_take_le 200 _
      | none => simp [extractCommandDescription, hov, hf]
    · intro hf
      simp [extractCommandDescription, hov, hf]

/-- C10 witness: the description theorem applied to a command body with an
Overview section and to one without. -/
theorem extractCommandDescription_spec_witness :
    extractCommandDescription overviewCmd = jsTrim "Ships the current build." ∧
      extractCommandDescription plainCmd =
        ⟨(jsTrim "Ships the current build to production.").data.take 200⟩ :=
  ⟨((extractCommandDescription_spec overviewCmd).1 "Ships the current build."
      (by decide)).1,
    ((extractCommandDescription_spec plainCmd).2 (by decide)).2.1
      "Ships the current build to production." (by decide)⟩

theorem findWithIdx_isSome (p : α → Bool) :
    ∀ l : List α, (findWithIdx p l).isSome ↔ ∃ x ∈ l, p x = true := by
  intro l
  induction l with
  | nil => simp [findWithIdx]
  | cons x t ih =>
    cases hx : p x with
    | true => simp [findWithIdx, hx]
    | false =>
      have hmap : (findWithIdx p (x :: t)).isSome = (findWithIdx p t).isSome := by
        simp only [findWithIdx, hx, Bool.false_eq_true, if_false]
        cases findWithIdx p t <;> rfl
      rw [show ((findWithIdx p (x :: t)).isSome = true) = ((findWithIdx p t).isSome = true) by rw [hmap], ih]
      constructor
      · rintro ⟨y, hy, hp⟩
        exact ⟨y, List.mem_cons_of_mem _ hy, hp⟩
      · rintro ⟨y, hy, hp⟩
        rcases List.mem_cons.mp hy with rfl | hy2
        · exact absurd hp (by simp [hx])
        · exact ⟨y, hy2, hp⟩

theorem extractOperationalBoundaries_isSome (content : String)
    (sections : List AgentsMdSection) :
    (extractOperationalBoundaries content sections).isSome ↔
      ∃ s ∈ sections, containsSubS "operational boundaries" (jsLower s.title) = true := by
  rw [← findWithIdx_isSome]
  cases h : findWithIdx
      (fun s => containsSubS "operational boundaries" (jsLower s.title)) sections with
  | none => simp [extractOperationalBoundaries, h]
  | some pr =>
    obtain ⟨idx, sec⟩ := pr
    simp [extractOperationalBoundaries, h]

theorem gmCollect_eq_nil (matchAt : Nat → Option (String × Nat)) (cs : List Char)
    (h : ∀ p ∈ lineStarts cs, matchAt p = none) : gmCollect matchAt cs = [] := by
  have hgo : ∀ fuel pos, gmCollect.go matchAt cs fuel pos = [] := by
    intro fuel
    cases fuel with
    | zero => intro pos; rfl
    | succ f =>
      intro pos
      have hfs : (lineStarts cs).findSome?
          (fun p => if pos ≤ p then matchAt p else none) = none := by
        rw [List.findSome?_eq_none_iff]
        intro p hp
        by_cases hle : pos ≤ p
        · simp [hle, h p hp]
        · simp [hle]
      simp [gmCollect.go, hfs]
  exact hgo _ _

/-- C3: the parsed constitution has an `operationalBoundaries` value exactly
when some parsed section's title contains (case-insensitively) the substring
`operational boundaries`; with no such heading the field is entirely absent
(`none`), never an empty-tiers object; and a tier whose heading regex finds
no match contributes an empty list; and a tier whose bounded content has no
matching bold-labelled bullet line also contributes an empty list (the
bullet stage of `extractTierItems` is exactly
`(gmCollect (tierBulletAt tc) tc).map jsTrim` on the bounded content). -/
theorem operationalBoundaries_presence :
    ∀ (content path : String),
      ((parseAgentsMd content path).operationalBoundaries.isSome ↔
        ∃ s ∈ (parseAgentsMd content path).sections,
          containsSubS "operational boundaries" (jsLower s.title) = true) ∧
      ((parseAgentsMd content path).operationalBoundaries = none ↔
        ∀ s ∈ (parseAgentsMd content path).sections,
          containsSubS "operational boundaries" (jsLower s.title) = false) ∧
      (∀ kw nm sc : String, tierHeadMatch sc.data kw.data nm.data = none →
        extractTierItems sc kw nm = []) ∧
      (∀ tc : List Char, (∀ p ∈ lineStarts tc, tierBulletAt tc p = none) →
        (gmCollect (tierBulletAt tc) tc).map jsTrim = []) := by
  intro content path
  have hs : (parseAgentsMd content path).sections =
      parseSections (splitLines content) := rfl
  have hob : (parseAgentsMd content path).operationalBoundaries =
      extractOperationalBoundaries content (parseSections (splitLines content)) := rfl
  refine ⟨?_, ?_, ?_, fun tc h => by rw [gmCollect_eq_nil _ _ h]; rfl⟩
  · rw [hs, hob]; exact extractOperationalBoundaries_isSome content _
  · rw [hs, hob, ← Option.not_isSome_iff_eq_none,
      extractOperationalBoundaries_isSome content _]
    push_neg
    constructor
    · intro h s hsmem
      have := h s hsmem
      simpa using this
    · intro h s hsmem
      simp [h s hsmem]
  · intro kw nm sc h
    simp [extractTierItems, h]

/-- C3 witness: the presence theorem applied to `obContent` (heading
present) and to tier extraction over content with no tier heading. -/
theorem operationalBoundaries_presence_witness :
    (parseAgentsMd obContent "/p").operationalBoundaries.isSome ∧
      extractTierItems "no tier headings here" "tier 2" "ask" = [] ∧
      (gmCollect (tierBulletAt "- plain bullet".data) "- plain bullet".data).map
        jsTrim = [] :=
  ⟨((operationalBoundaries_presence obContent "/p").1).mpr (by decide),
    (operationalBoundaries_presence obContent "/p").2.2.1 "tier 2" "ask"
      "no tier headings here" (by decide),
    (operationalBoundaries_presence obContent "/p").2.2.2 "- plain bullet".data
      (by decide)⟩

theorem sectionsGo_startLines (total : Nat) :
    ∀ (rest : List String) (i : Nat) (cur : Option AgentsMdSection),
      (sectionsGo total rest i cur).map AgentsMdSection.startLine =
        (match cur with | some c => [c.startLine] | none => []) ++ headingIdxsFrom rest i := by
  intro rest
  induction rest with
  | nil => intro i cur; cases cur <;> simp [sectionsGo, headingIdxsFrom]
  | cons l t ih =>
    intro i cur
    cases hh : headingMatch l.data with
    | some pr =>
      obtain ⟨lv, seg⟩ := pr
      have hH : isHeading l = true := by simp [isHeading, hh]
      cases cur with
      | some c => simp [sectionsGo, hh, ih, headingIdxsFrom, hH]
      | none => simp [sectionsGo, hh, ih, headingIdxsFrom, hH]
    | none =>
      have hH : isHeading l = false := by simp [isHeading, hh]
      cases cur with
      | some c => simp [sectionsGo, hh, ih, headingIdxsFrom, hH]
      | none => simp [sectionsGo, hh, ih, headingIdxsFrom, hH]

theorem headingIdxsFrom_mem :
    ∀ (rest : List String) (i n : Nat),
      n ∈ headingIdxsFrom rest i ↔
        ∃ k l, n = i + k ∧ rest[k]? = some l ∧ isHeading l = true := by
  intro rest
  induction rest with
  | nil => intro i n; simp [headingIdxsFrom]
  | cons l t ih =>
    intro i n
    cases hH : isHeading l with
    | true =>
      simp only [headingIdxsFrom, hH, if_true, List.mem_cons, ih]
      constructor
      · rintro (rfl | ⟨k, l', rfl, hget, hh⟩)
        · exact ⟨0, l, by omega, by simp, hH⟩
        · exact ⟨k + 1, l', by omega, by simpa using hget, hh⟩
      · rintro ⟨k, l', hn, hget, hh⟩
        cases k with
        | zero =>
          left
          simp at hget
          omega
        | succ k2 =>
          right
          exact ⟨k2, l', by omega, by simpa using hget, hh⟩
    | false =>
      simp only [headingIdxsFrom, hH, Bool.false_eq_true, if_false, ih]
      constructor
      · rintro ⟨k, l', rfl, hget, hh⟩
        exact ⟨k + 1, l', by omega, by simpa using hget, hh⟩
      · rintro ⟨k, l', hn, hget, hh⟩
        cases k with
        | zero =>
          simp at hget
          subst hget
          exact absurd hh (by simp [hH])
        | succ k2 =>
          exact ⟨k2, l', by omega, by simpa using hget, hh⟩

theorem sectionsGo_cons_some (total : Nat) (rest : List String) (i : Nat)
    (c : AgentsMdSection) :
    ∃ h t2, sectionsGo total rest i (some c) = h :: t2 ∧ h.startLine = c.startLine := by
  have h1 := sectionsGo_startLines total rest i (some c)
  cases hxs : sectionsGo total rest i (some c) with
  | nil => rw [hxs] at h1; simp at h1
  | cons a as =>
    rw [hxs] at h1
    simp at h1
    exact ⟨a, as, rfl, h1.1⟩

theorem sectionsGo_chain (total : Nat) :
    ∀ (rest : List String) (i : Nat) (cur : Option AgentsMdSection),
      (∀ c, cur = some c → c.startLine < i) →
      List.Chain' (fun a b => a.endLine + 1 = b.startLine) (sectionsGo total rest i cur) := by
  intro rest
  induction rest with
  | nil =>
    intro i cur hc
    cases cur <;> simp [sectionsGo]
  | cons l t ih =>
    intro i cur hc
    cases hh : headingMatch l.data with
    | some pr =>
      obtain ⟨lv, seg⟩ := pr
      cases cur with
      | none =>
        have hstep : sectionsGo total (l :: t) i none =
            sectionsGo total t (i + 1)
              (some ⟨lv, jsTrim ⟨seg⟩, i, total - 1⟩) := by
          simp [sectionsGo, hh]
        rw [hstep]
        exact ih (i + 1) _ (fun c2 hc2 => by cases hc2; simp)
      | some c =>
        have hstep : sectionsGo total (l :: t) i (some c) =
            { c with endLine := i - 1 } ::
              sectionsGo total t (i + 1) (some ⟨lv, jsTrim ⟨seg⟩, i, total - 1⟩) := by
          simp [sectionsGo, hh]
        rw [hstep, List.chain'_cons']
        have hi : 1 ≤ i := by
          have := hc c rfl
          omega
        constructor
        · intro y hy
          obtain ⟨h, t2, heq, hstart⟩ :=
            sectionsGo_cons_some total t (i + 1) ⟨lv, jsTrim ⟨seg⟩, i, total - 1⟩
          rw [heq] at hy
          simp at hy
          subst hy
          simp [hstart]
          omega
        · exact ih (i + 1) _ (fun c2 hc2 => by cases hc2; simp)
    | none =>
      have hstep : sectionsGo total (l :: t) i cur = sectionsGo total t (i + 1) cur := by
        cases cur <;> simp [sectionsGo, hh]
      rw [hstep]
      exact ih (i + 1) cur (fun c2 hc2 => by have := hc c2 hc2; omega)

theorem sectionsGo_last (total : Nat) :
    ∀ (rest : List String) (i : Nat) (cur : Option AgentsMdSection),
      (∀ c, cur = some c → c.endLine = total - 1) →
      ∀ s, (sectionsGo total rest i cur).getLast? = some s → s.endLine = total - 1 := by
  intro rest
  induction rest with
  | nil =>
    intro i cur hc s hlast
    cases cur with
    | none => simp [sectionsGo] at hlast
    | some c =>
      simp [sectionsGo] at hlast
      cases hlast
      exact hc _ rfl
  | cons l t ih =>
    intro i cur hc s hlast
    cases hh : headingMatch l.data with
    | some pr =>
      obtain ⟨lv, seg⟩ := pr
      cases cur with
      | none =>
        have hstep : sectionsGo total (l :: t) i none =
            sectionsGo total t (i + 1)
              (some ⟨lv, jsTrim ⟨seg⟩, i, total - 1⟩) := by
          simp [sectionsGo, hh]
        rw [hstep] at hlast
        exact ih (i + 1) _ (fun c2 hc2 => by cases hc2; rfl) s hlast
      | some c =>
        have hstep : sectionsGo total (l :: t) i (some c) =
            { c with endLine := i - 1 } ::
              sectionsGo total t (i + 1) (some ⟨lv, jsTrim ⟨seg⟩, i, total - 1⟩) := by
          simp [sectionsGo, hh]
        rw [hstep] at hlast
        obtain ⟨h, t2, heq, _⟩ :=
          sectionsGo_cons_some total t (i + 1) ⟨lv, jsTrim ⟨seg⟩, i, total - 1⟩
        rw [heq] at hlast
        rw [List.getLast?_cons_cons] at hlast
        rw [← heq] at hlast
        exact ih (i + 1) _ (fun c2 hc2 => by cases hc2; rfl) s hlast
    | none =>
      have hstep : sectionsGo total (l :: t) i cur = sectionsGo total t (i + 1) cur := by
        cases cur <;> simp [sectionsGo, hh]
      rw [hstep] at hlast
      exact ih (i + 1) cur hc s hlast

theorem descRange_mem (w n : Nat) : w ∈ descRange n ↔ w ≤ n := by
  simp [descRange, List.mem_reverse, List.mem_range, Nat.lt_succ_iff]

theorem charAt_mem (cs : List Char) (i : Nat) (c : Char) (h : charAt cs i = some c) :
    c ∈ cs := by
  unfold charAt at h
  cases hd : cs.drop i with
  | nil => rw [hd] at h; cases h
  | cons a t =>
    rw [hd] at h
    cases h
    exact List.mem_of_mem_drop (by rw [hd]; exact List.mem_cons_self _ _)

theorem mem_take_of_le_takeWhile {l : List Char} {p : Char → Bool} {w : Nat}
    (hw : w ≤ (l.takeWhile p).length) : ∀ c ∈ l.take w, p c = true := by
  have hEq : l.take w = (l.takeWhile p).take w := by
    conv_lhs => rw [← List.takeWhile_append_dropWhile (p := p) (l := l)]
    rw [List.take_append_of_le_length hw]
  intro c hc
  rw [hEq] at hc
  exact List.mem_takeWhile_imp (List.mem_of_mem_take hc)

theorem greedyTail_eq_some {wsCls segCls : Char → Bool} {minW : Nat}
    {requireEol : Bool} {cs : List Char} {j : Nat} {seg : List Char} {e : Nat}
    (h : greedyTail wsCls segCls minW requireEol cs j = some (seg, e)) :
    ∃ w, minW ≤ w ∧ w ≤ runLen wsCls cs j ∧
      seg = (cs.drop (j + w)).takeWhile segCls ∧ seg ≠ [] ∧
      e = j + w + seg.length ∧
      (requireEol = true → e = cs.length ∨ charAt cs e = some '\n') := by
  obtain ⟨w, hw, h2⟩ := List.exists_of_findSome?_eq_some h
  rw [descRange_mem] at hw
  refine ⟨w, ?_, hw, ?_⟩
  · by_contra hlt
    simp only [if_pos (by omega : w < minW)] at h2
    cases h2
  · have hge : ¬ w < minW := by
      by_contra hlt
      simp only [if_pos hlt] at h2
      cases h2
    simp only [if_neg hge] at h2
    split at h2
    · cases h2
    · rename_i hne
      cases hreq : requireEol with
      | true =>
        rw [hreq] at h2
        simp only [if_true] at h2
        split at h2
        · rename_i heol
          cases h2
          refine ⟨rfl, by simpa [List.isEmpty_iff] using hne, rfl, fun _ => ?_⟩
          simpa using heol
        · cases h2
      | false =>
        rw [hreq] at h2
        simp only [Bool.false_eq_true, if_false] at h2
        cases h2
        exact ⟨rfl, by simpa [List.isEmpty_iff] using hne, rfl, by simp⟩

theorem greedyTail_isSome_of {cs : List Char} {j w : Nat}
    (h1 : 1 ≤ w) (h2 : w ≤ runLen jsWs cs j) (h3 : cs.drop (j + w) ≠ [])
    (h4 : ∀ c ∈ cs.drop (j + w), jsDot c = true) :
    (greedyTail jsWs jsDot 1 true cs j).isSome = true := by
  rw [greedyTail, List.findSome?_isSome_iff]
  refine ⟨w, (descRange_mem w _).mpr h2, ?_⟩
  have hseg : (cs.drop (j + w)).takeWhile jsDot = cs.drop (j + w) :=
    List.takeWhile_eq_self_iff.mpr h4
  have hjw : j + w < cs.length := by
    by_contra hge
    exact h3 (List.drop_eq_nil_of_le (by omega))
  have hlt : ¬ w < 1 := by omega
  simp only [if_neg hlt, hseg]
  have hnem : (cs.drop (j + w)).isEmpty = false := by
    simpa [List.isEmpty_iff] using h3
  simp [hnem, List.length_drop]
  omega

theorem headingMatch_isSome_iff (cs : List Char) (hnl : '\n' ∉ cs) :
    (headingMatch cs).isSome = true ↔ specHeadingL cs := by
  constructor
  · intro h
    rw [Option.isSome_iff_exists] at h
    obtain ⟨⟨k0, seg⟩, hm⟩ := h
    simp only [headingMatch] at hm
    split at hm
    · cases hm
    · rename_i hguard
      cases hg : greedyTail jsWs jsDot 1 true cs
          (runLen (fun c => decide (c = '#')) cs 0) with
      | none => rw [hg] at hm; cases hm
      | some pr =>
        obtain ⟨seg2, e⟩ := pr
        rw [hg] at hm
        cases hm
        set K := runLen (fun c => decide (c = '#')) cs 0 with hKdef
        obtain ⟨w, hw1, hw2, hsegEq, hsegNe, hEe, hEol⟩ := greedyTail_eq_some hg
        simp only [Bool.or_eq_true, decide_eq_true_eq, not_or] at hguard
        have hKtw : K = (cs.takeWhile (fun c => decide (c = '#'))).length := by
          simp [hKdef, runLen]
        have htake : cs.take K = List.replicate K '#' := by
          have hpre := List.takeWhile_prefix (l := cs) (fun c => decide (c = '#'))
          have heq := List.prefix_iff_eq_take.mp hpre
          rw [hKtw, ← heq, List.eq_replicate_iff]
          exact ⟨rfl, fun b hb => by simpa using List.mem_takeWhile_imp hb⟩
        have hwsAll : ∀ c ∈ (cs.drop K).take w, jsWs c = true := by
          apply mem_take_of_le_takeWhile
          simpa [runLen] using hw2
        have hw0le : runLen jsWs cs K ≤ (cs.drop K).length := by
          simp only [runLen]
          exact (List.takeWhile_prefix _).length_le
        have hwlen : w ≤ (cs.drop K).length := le_trans hw2 hw0le
        have hwsNe : (cs.drop K).take w ≠ [] := by
          apply List.ne_nil_of_length_pos
          rw [List.length_take]
          omega
        have hEeq : e = cs.length := by
          rcases hEol rfl with h1 | h1
          · exact h1
          · exact absurd (charAt_mem cs e '\n' h1) hnl
        have htxtEq : seg = cs.drop (K + w) := by
          apply List.IsPrefix.eq_of_length
          · rw [hsegEq]; exact List.takeWhile_prefix _
          · rw [List.length_drop]
            rw [List.length_drop] at hwlen
            omega
        refine ⟨K, (cs.drop K).take w, cs.drop (K + w), ?_, by omega, by omega,
          hwsNe, hwsAll, ?_, ?_⟩
        · rw [← htake, List.append_assoc]
          conv_lhs => rw [← List.take_append_drop K cs]
          congr 1
          conv_lhs => rw [← List.take_append_drop w (cs.drop K)]
          congr 1
          exact List.drop_drop w K cs
        · rw [← htxtEq]; exact hsegNe
        · intro c hc
          rw [← htxtEq] at hc
          exact List.mem_takeWhile_imp (hsegEq ▸ hc)
  · rintro ⟨k, ws, txt, hcs, hk1, hk6, hwsne, hws, htxtne, htxt⟩
    have hws_ne_hash : ∀ c ∈ ws, ¬ (c = '#') := by
      intro c hc hch
      have h2 := hws c hc
      rw [hch] at h2
      exact absurd h2 (by decide)
    have hK : runLen (fun c => decide (c = '#')) cs 0 = k := by
      rw [hcs]
      simp only [runLen, List.drop_zero]
      rw [List.append_assoc, List.takeWhile_append]
      have h1 : List.takeWhile (fun c => decide (c = '#')) (List.replicate k '#') =
          List.replicate k '#' :=
        List.takeWhile_eq_self_iff.mpr (fun c hc => by
          simp [List.eq_of_mem_replicate hc])
      rw [h1]
      simp only [List.length_replicate, if_pos rfl]
      cases ws with
      | nil => exact absurd rfl hwsne
      | cons w1 ws2 =>
        have hw1 : (decide (w1 = '#')) = false :=
          decide_eq_false (hws_ne_hash w1 (List.mem_cons_self _ _))
        simp [List.takeWhile_cons, hw1]
    have hdropk : cs.drop k = ws ++ txt := by
      rw [hcs, List.append_assoc]
      have hdl := List.drop_left (List.replicate k ('#' : Char)) (ws ++ txt)
      rw [List.length_replicate] at hdl
      exact hdl
    have hw0 : runLen jsWs cs k = ws.length + (txt.takeWhile jsWs).length := by
      simp only [runLen, hdropk]
      rw [List.takeWhile_append]
      have h1 : List.takeWhile jsWs ws = ws := List.takeWhile_eq_self_iff.mpr hws
      rw [h1]
      simp
    have hwslen : 1 ≤ ws.length := List.length_pos.mpr hwsne
    have htxtlen : 1 ≤ txt.length := List.length_pos.mpr htxtne
    have hTle : (txt.takeWhile jsWs).length ≤ txt.length :=
      (List.takeWhile_prefix _).length_le
    have hdropGen : ∀ y, cs.drop (k + (ws.length + y)) = txt.drop y := by
      intro y
      rw [← List.drop_drop, hdropk, ← List.drop_drop, List.drop_left]
    have hgt : (greedyTail jsWs jsDot 1 true cs k).isSome = true := by
      by_cases hcase : (txt.takeWhile jsWs).length = txt.length
      · have hdd : cs.drop (k + (ws.length + txt.length - 1)) =
            txt.drop (txt.length - 1) := by
          rw [show ws.length + txt.length - 1 = ws.length + (txt.length - 1) by omega]
          exact hdropGen (txt.length - 1)
        apply greedyTail_isSome_of (w := ws.length + txt.length - 1)
        · omega
        · rw [hw0]; omega
        · rw [hdd]
          apply List.ne_nil_of_length_pos
          rw [List.length_drop]
          omega
        · intro c hc
          rw [hdd] at hc
          exact htxt c (List.mem_of_mem_drop hc)
      · have hdd : cs.drop (k + (ws.length + (txt.takeWhile jsWs).length)) =
            txt.drop (txt.takeWhile jsWs).length := hdropGen _
        apply greedyTail_isSome_of (w := ws.length + (txt.takeWhile jsWs).length)
        · omega
        · rw [hw0]
        · rw [hdd]
          apply List.ne_nil_of_length_pos
          rw [List.length_drop]
          omega
        · intro c hc
          rw [hdd] at hc
          exact htxt c (List.mem_of_mem_drop hc)
    obtain ⟨⟨seg, e⟩, hg⟩ := Option.isSome_iff_exists.mp hgt
    have hguard : ((k = 0 : Bool) || (6 < k : Bool)) = false := by
      simp
      omega
    simp only [headingMatch, hK, hguard, Bool.false_eq_true, if_false, hg]
    rfl

/-- C4: `parseSections` returns one section per line recognized by the
heading regex, in document order (the `startLine` list is exactly the list
of heading-line indices in order); every section's `endLine` is one less
than the next section's `startLine` (`endLine + 1 = startLine` of the
successor); a last section's `endLine` is the index of the last line of the
file; and a line is recognized exactly when it decomposes into a run of 1–6
`#` characters followed by whitespace and text (`specHeadingL`). -/
theorem parseSections_sections_structure :
    ∀ lines : List String,
      ((parseSections lines).map AgentsMdSection.startLine = headingIdxsFrom lines 0) ∧
      (∀ n, n ∈ headingIdxsFrom lines 0 ↔
        ∃ l, lines[n]? = some l ∧ isHeading l = true) ∧
      List.Chain' (fun a b => a.endLine + 1 = b.startLine) (parseSections lines) ∧
      (∀ s, (parseSections lines).getLast? = some s → s.endLine = lines.length - 1) ∧
      (∀ l : String, '\n' ∉ l.data → (isHeading l = true ↔ specHeadingL l.data)) := by
  intro lines
  refine ⟨?_, ?_, ?_, ?_, fun l hnl => headingMatch_isSome_iff l.data hnl⟩
  · simpa using sectionsGo_startLines lines.length lines 0 none
  · intro n
    rw [headingIdxsFrom_mem]
    constructor
    · rintro ⟨k, l, rfl, h1, h2⟩
      simpa using ⟨l, h1, h2⟩
    · rintro ⟨l, h1, h2⟩
      exact ⟨n, l, by omega, h1, h2⟩
  · exact sectionsGo_chain lines.length lines 0 none (by simp)
  · exact sectionsGo_last lines.length lines 0 none (by simp)

/-- C4 witness: the structure theorem applied to `c4lines` (headings at
indices 1 and 3; the last section ends at line 4). -/
theorem parseSections_sections_structure_witness :
    ((parseSections c4lines).map AgentsMdSection.startLine = [1, 3]) ∧
      (1 ∈ headingIdxsFrom c4lines 0 ↔
        ∃ l, c4lines[1]? = some l ∧ isHeading l = true) ∧
      (AgentsMdSection.mk 2 "B" 3 4).endLine = c4lines.length - 1 ∧
      specHeadingL "## B".data :=
  ⟨by rw [(parseSections_sections_structure c4lines).1]; decide,
    (parseSections_sections_structure c4lines).2.1 1,
    (parseSections_sections_structure c4lines).2.2.2.1 ⟨2, "B", 3, 4⟩ (by decide),
    ((parseSections_sections_structure c4lines).2.2.2.2 "## B" (by decide)).mp
      (by decide)⟩


end ACE
